import Mathlib

/-!
# Verification of the Kanban card timestamp engine

Shallow embedding of the timestamp utility module of the obsidian-kanban
fork.  Titles are lists of characters (JS strings are UTF-16 sequences; all
characters involved are in the BMP, so one `Char` corresponds to one UTF-16
code unit and JS string indices coincide with list positions).

The regular expressions of the source
(`▶️\s*\d{4}-\d{2}-\d{2}\s+\d{2}:\d{2}` and friends) are embedded as a
deterministic matcher: `\s*`/`\s+` followed by a digit class never needs
backtracking, because no character is both whitespace and a digit, so the
greedy maximal-munch scan below computes exactly the JS match.
-/

/-- JavaScript `\s` character class (ECMA-262 WhiteSpace ∪ LineTerminator). -/
def isWS (c : Char) : Bool :=
  c.toNat = 9 || c.toNat = 10 || c.toNat = 11 || c.toNat = 12 || c.toNat = 13 ||
  c.toNat = 32 || c.toNat = 160 || c.toNat = 0x1680 ||
  (0x2000 ≤ c.toNat && c.toNat ≤ 0x200A) ||
  c.toNat = 0x2028 || c.toNat = 0x2029 || c.toNat = 0x202F || c.toNat = 0x205F ||
  c.toNat = 0x3000 || c.toNat = 0xFEFF

/-- JavaScript `\d` character class. -/
def isDigit (c : Char) : Bool :=
  48 ≤ c.toNat && c.toNat ≤ 57

/-- The four timestamp marker kinds of the final (4-state) revision. -/
inductive TimestampType : Type
  | start
  | pause
  | end_
  | completion
deriving DecidableEq, Repr

/-- The emoji glyph of each marker kind, as the code-point sequence that the
source embeds in its pattern strings (`▶️` and the pause/stop glyphs carry a
variation selector U+FE0F; `✅` is a single code point). -/
def glyph : TimestampType → List Char
  | .start => ['▶', '️']
  | .pause => ['⏸', '️']
  | .end_ => ['⏹', '️']
  | .completion => ['✅']

/-- First character of a kind's glyph; the four are pairwise distinct. -/
def g1 : TimestampType → Char
  | .start => '▶'
  | .pause => '⏸'
  | .end_ => '⏹'
  | .completion => '✅'

/-- Whether the kind's pattern carries a time-of-day part
(`\s+\d{2}:\d{2}`); only the completion date is date-only. -/
def hasTime : TimestampType → Bool
  | .completion => false
  | _ => true

/-- Consume a literal character sequence. -/
def eatLit : List Char → List Char → Option (List Char)
  | [], l => some l
  | _ :: _, [] => none
  | p :: ps, c :: cs => if c = p then eatLit ps cs else none

/-- Consume exactly `n` digit characters. -/
def eatDigits : Nat → List Char → Option (List Char)
  | 0, l => some l
  | _ + 1, [] => none
  | n + 1, c :: cs => if isDigit c then eatDigits n cs else none

/-- Consume one literal character. -/
def eatChar (a : Char) : List Char → Option (List Char)
  | [] => none
  | c :: cs => if c = a then some cs else none

/-- Consume `\s+` (one or more whitespace characters, maximal munch). -/
def eatWSPlus : List Char → Option (List Char)
  | [] => none
  | c :: cs => if isWS c then some (cs.dropWhile isWS) else none

/-- Match the kind's full pattern at the head of `l`; returns the remaining
suffix on success.  This is the JS regex
`<glyph>\s*\d{4}-\d{2}-\d{2}(\s+\d{2}:\d{2})?` anchored at the current
position (the time part present exactly when `hasTime`). -/
def matchRest (k : TimestampType) (l : List Char) : Option (List Char) :=
  (eatLit (glyph k) l).bind fun r1 =>
    (eatDigits 4 (r1.dropWhile isWS)).bind fun r2 =>
      (eatChar '-' r2).bind fun r3 =>
        (eatDigits 2 r3).bind fun r4 =>
          (eatChar '-' r4).bind fun r5 =>
            (eatDigits 2 r5).bind fun r6 =>
              if hasTime k then
                (eatWSPlus r6).bind fun r7 =>
                  (eatDigits 2 r7).bind fun r8 =>
                    (eatChar ':' r8).bind fun r9 =>
                      eatDigits 2 r9
              else
                some r6

theorem eatLit_length : ∀ p l r, eatLit p l = some r → r.length + p.length = l.length := by
  intro p
  induction p with
  | nil => intro l r h; simp [eatLit] at h; simp [h]
  | cons a ps ih =>
    intro l r h
    cases l with
    | nil => simp [eatLit] at h
    | cons c cs =>
      simp only [eatLit] at h
      split at h
      · have := ih cs r h
        simp [List.length_cons]
        omega
      · exact absurd h (by simp)

theorem eatDigits_length : ∀ n l r, eatDigits n l = some r → r.length + n = l.length := by
  intro n
  induction n with
  | zero => intro l r h; simp [eatDigits] at h; simp [h]
  | succ m ih =>
    intro l r h
    cases l with
    | nil => simp [eatDigits] at h
    | cons c cs =>
      simp only [eatDigits] at h
      split at h
      · have := ih cs r h
        simp [List.length_cons]
        omega
      · exact absurd h (by simp)

theorem eatChar_length : ∀ a l r, eatChar a l = some r → r.length + 1 = l.length := by
  intro a l r h
  cases l with
  | nil => simp [eatChar] at h
  | cons c cs =>
    simp only [eatChar] at h
    split at h
    · simp at h; simp [← h]
    · exact absurd h (by simp)

theorem length_dropWhile_le (p : Char → Bool) (l : List Char) :
    (l.dropWhile p).length ≤ l.length := by
  induction l with
  | nil => simp [List.dropWhile]
  | cons c cs ih =>
    simp only [List.dropWhile]
    split
    · exact Nat.le_trans ih (Nat.le_succ _)
    · exact Nat.le_refl _

theorem eatWSPlus_length : ∀ l r, eatWSPlus l = some r → r.length + 1 ≤ l.length := by
  intro l r h
  cases l with
  | nil => simp [eatWSPlus] at h
  | cons c cs =>
    simp only [eatWSPlus] at h
    split at h
    · simp at h
      have hd := length_dropWhile_le isWS cs
      subst h
      have hlen : (c :: cs).length = cs.length + 1 := rfl
      omega
    · exact absurd h (by simp)

/-- A successful match consumes at least one character. -/
theorem matchRest_length {k : TimestampType} {l r : List Char}
    (h : matchRest k l = some r) : r.length < l.length := by
  unfold matchRest at h
  cases h1 : eatLit (glyph k) l with
  | none => rw [h1] at h; simp at h
  | some r1 =>
    rw [h1] at h; simp only [Option.some_bind] at h
    cases h2 : eatDigits 4 (r1.dropWhile isWS) with
    | none => rw [h2] at h; simp at h
    | some r2 =>
      rw [h2] at h; simp only [Option.some_bind] at h
      cases h3 : eatChar '-' r2 with
      | none => rw [h3] at h; simp at h
      | some r3 =>
        rw [h3] at h; simp only [Option.some_bind] at h
        cases h4 : eatDigits 2 r3 with
        | none => rw [h4] at h; simp at h
        | some r4 =>
          rw [h4] at h; simp only [Option.some_bind] at h
          cases h5 : eatChar '-' r4 with
          | none => rw [h5] at h; simp at h
          | some r5 =>
            rw [h5] at h; simp only [Option.some_bind] at h
            cases h6 : eatDigits 2 r5 with
            | none => rw [h6] at h; simp at h
            | some r6 =>
              rw [h6] at h; simp only [Option.some_bind] at h
              have l1 := eatLit_length _ _ _ h1
              have l2 := eatDigits_length _ _ _ h2
              have l3 := eatChar_length _ _ _ h3
              have l4 := eatDigits_length _ _ _ h4
              have l5 := eatChar_length _ _ _ h5
              have l6 := eatDigits_length _ _ _ h6
              have ldw := length_dropWhile_le isWS r1
              have hg : 1 ≤ (glyph k).length := by cases k <;> simp [glyph]
              by_cases ht : hasTime k
              · rw [if_pos ht] at h
                cases h7 : eatWSPlus r6 with
                | none => rw [h7] at h; simp at h
                | some r7 =>
                  rw [h7] at h; simp only [Option.some_bind] at h
                  cases h8 : eatDigits 2 r7 with
                  | none => rw [h8] at h; simp at h
                  | some r8 =>
                    rw [h8] at h; simp only [Option.some_bind] at h
                    cases h9 : eatChar ':' r8 with
                    | none => rw [h9] at h; simp at h
                    | some r9 =>
                      rw [h9] at h; simp only [Option.some_bind] at h
                      have l7 := eatWSPlus_length _ _ h7
                      have l8 := eatDigits_length _ _ _ h8
                      have l9 := eatChar_length _ _ _ h9
                      have l10 := eatDigits_length _ _ _ h
                      omega
              · rw [if_neg ht] at h
                simp at h
                subst h
                omega

/-- Global replace of every (leftmost, non-overlapping) match of the kind's
pattern by `rep` — the embedding of JS `String.replace` with a `/g` regex.
Structured with explicit fuel so that the kernel can evaluate it. -/
def replaceAllGo (k : TimestampType) (rep : List Char) : Nat → List Char → List Char
  | 0, l => l
  | _ + 1, [] => []
  | fuel + 1, c :: cs =>
    match matchRest k (c :: cs) with
    | some rest => rep ++ replaceAllGo k rep fuel rest
    | none => c :: replaceAllGo k rep fuel cs

/-- Global regex replace over a title. -/
def replaceAll (k : TimestampType) (rep : List Char) (l : List Char) : List Char :=
  replaceAllGo k rep l.length l

theorem replaceAllGo_fuel (k : TimestampType) (rep : List Char) :
    ∀ n m l, l.length ≤ n → l.length ≤ m →
      replaceAllGo k rep n l = replaceAllGo k rep m l := by
  intro n
  induction n with
  | zero =>
    intro m l hn _
    have : l = [] := by cases l with
      | nil => rfl
      | cons c cs => simp at hn
    subst this
    cases m <;> simp [replaceAllGo]
  | succ n ih =>
    intro m l hn hm
    cases l with
    | nil => cases m <;> simp [replaceAllGo]
    | cons c cs =>
      cases m with
      | zero => simp at hm
      | succ m =>
        cases h : matchRest k (c :: cs) with
        | some rest =>
          have hlt := matchRest_length h
          simp only [List.length_cons] at hn hm hlt
          simp only [replaceAllGo, h]
          rw [ih m rest (by omega) (by omega)]
        | none =>
          simp only [List.length_cons] at hn hm
          simp only [replaceAllGo, h]
          rw [ih m cs (by omega) (by omega)]

theorem replaceAll_nil (k : TimestampType) (rep : List Char) :
    replaceAll k rep [] = [] := rfl

theorem replaceAll_cons (k : TimestampType) (rep : List Char) (c : Char) (cs : List Char) :
    replaceAll k rep (c :: cs) =
      match matchRest k (c :: cs) with
      | some rest => rep ++ replaceAll k rep rest
      | none => c :: replaceAll k rep cs := by
  show replaceAllGo k rep (cs.length + 1) (c :: cs) = _
  cases h : matchRest k (c :: cs) with
  | some rest =>
    have hlt := matchRest_length h
    simp only [List.length_cons] at hlt
    simp only [replaceAllGo, h]
    rw [replaceAllGo_fuel k rep cs.length rest.length rest (by omega) (Nat.le_refl _)]
    rfl
  | none => simp only [replaceAllGo, h]; rfl

/-- Does the kind's pattern match anywhere in the title
(JS `RegExp.test` with a fresh pattern)? -/
def hasMatch (k : TimestampType) : List Char → Bool
  | [] => false
  | c :: cs => (matchRest k (c :: cs)).isSome || hasMatch k cs

/-- Character offset of the first match of the kind's pattern
(JS `RegExp.exec().index`, `none` when there is no match). -/
def firstMatchPos (k : TimestampType) : List Char → Option Nat
  | [] => none
  | c :: cs =>
    if (matchRest k (c :: cs)).isSome then some 0
    else (firstMatchPos k cs).map (· + 1)

/-- Number of matches found by a global left-to-right scan
(the number of occurrences a `/g` replace would touch). -/
def countMatchesGo (k : TimestampType) : Nat → List Char → Nat
  | 0, _ => 0
  | _ + 1, [] => 0
  | fuel + 1, c :: cs =>
    match matchRest k (c :: cs) with
    | some rest => countMatchesGo k fuel rest + 1
    | none => countMatchesGo k fuel cs

/-- Number of global-scan matches of kind `k` in a title. -/
def countMatches (k : TimestampType) (l : List Char) : Nat :=
  countMatchesGo k l.length l

theorem countMatchesGo_fuel (k : TimestampType) :
    ∀ n m l, l.length ≤ n → l.length ≤ m →
      countMatchesGo k n l = countMatchesGo k m l := by
  intro n
  induction n with
  | zero =>
    intro m l hn _
    have : l = [] := by cases l with
      | nil => rfl
      | cons c cs => simp at hn
    subst this
    cases m <;> simp [countMatchesGo]
  | succ n ih =>
    intro m l hn hm
    cases l with
    | nil => cases m <;> simp [countMatchesGo]
    | cons c cs =>
      cases m with
      | zero => simp at hm
      | succ m =>
        cases h : matchRest k (c :: cs) with
        | some rest =>
          have hlt := matchRest_length h
          simp only [List.length_cons] at hn hm hlt
          simp only [countMatchesGo, h]
          rw [ih m rest (by omega) (by omega)]
        | none =>
          simp only [List.length_cons] at hn hm
          simp only [countMatchesGo, h]
          rw [ih m cs (by omega) (by omega)]

theorem countMatches_nil (k : TimestampType) : countMatches k [] = 0 := rfl

theorem countMatches_cons (k : TimestampType) (c : Char) (cs : List Char) :
    countMatches k (c :: cs) =
      match matchRest k (c :: cs) with
      | some rest => countMatches k rest + 1
      | none => countMatches k cs := by
  show countMatchesGo k (cs.length + 1) (c :: cs) = _
  cases h : matchRest k (c :: cs) with
  | some rest =>
    have hlt := matchRest_length h
    simp only [List.length_cons] at hlt
    simp only [countMatchesGo, h]
    rw [countMatchesGo_fuel k cs.length rest.length rest (by omega) (Nat.le_refl _)]
    rfl
  | none => simp only [countMatchesGo, h]; rfl

/-- Collapse of every run of two or more whitespace characters into a single
space — the embedding of `result.replace(/\s{2,}/g, ' ')`.  A lone
whitespace character is left as it is. -/
def collapseGo : Nat → List Char → List Char
  | 0, l => l
  | _ + 1, [] => []
  | _ + 1, [c] => [c]
  | fuel + 1, c1 :: c2 :: cs =>
    if isWS c1 && isWS c2 then ' ' :: collapseGo fuel ((c2 :: cs).dropWhile isWS)
    else c1 :: collapseGo fuel (c2 :: cs)

/-- `replace(/\s{2,}/g, ' ')` over a title. -/
def collapseWS (l : List Char) : List Char :=
  collapseGo l.length l

theorem collapseGo_fuel :
    ∀ n m l, l.length ≤ n → l.length ≤ m → collapseGo n l = collapseGo m l := by
  intro n
  induction n with
  | zero =>
    intro m l hn _
    have : l = [] := by cases l with
      | nil => rfl
      | cons c cs => simp at hn
    subst this
    cases m <;> simp [collapseGo]
  | succ n ih =>
    intro m l hn hm
    match l with
    | [] => cases m <;> simp [collapseGo]
    | [c] =>
      cases m with
      | zero => simp at hm
      | succ m => simp [collapseGo]
    | c1 :: c2 :: cs =>
      cases m with
      | zero => simp at hm
      | succ m =>
        simp only [collapseGo]
        simp only [List.length_cons] at hn hm
        have hdw := length_dropWhile_le isWS (c2 :: cs)
        simp only [List.length_cons] at hdw
        split
        · rw [ih m ((c2 :: cs).dropWhile isWS) (by omega) (by omega)]
        · rw [ih m (c2 :: cs) (by simp; omega) (by simp; omega)]

theorem collapseWS_nil : collapseWS [] = [] := rfl

theorem collapseWS_single (c : Char) : collapseWS [c] = [c] := rfl

theorem collapseWS_cons₂ (c1 c2 : Char) (cs : List Char) :
    collapseWS (c1 :: c2 :: cs) =
      if isWS c1 && isWS c2 then ' ' :: collapseWS ((c2 :: cs).dropWhile isWS)
      else c1 :: collapseWS (c2 :: cs) := by
  show collapseGo (cs.length + 2) (c1 :: c2 :: cs) = _
  simp only [collapseGo]
  have hdw := length_dropWhile_le isWS (c2 :: cs)
  simp only [List.length_cons] at hdw
  split
  · rw [collapseGo_fuel (cs.length + 1) ((c2 :: cs).dropWhile isWS).length
      ((c2 :: cs).dropWhile isWS) (by omega) (Nat.le_refl _)]
    rfl
  · rw [collapseGo_fuel (cs.length + 1) (cs.length + 1) (c2 :: cs) (by simp) (by simp)]
    rfl

/-- `str.replace(/^\s+/, '')` — the source's `trimStart` helper. -/
def trimStart (l : List Char) : List Char :=
  l.dropWhile isWS

/-- `str.replace(/\s+$/, '')` — the source's `trimEnd` helper. -/
def trimEnd (l : List Char) : List Char :=
  (l.reverse.dropWhile isWS).reverse

/-- JS `String.prototype.trim()`. -/
def trimBoth (l : List Char) : List Char :=
  trimStart (trimEnd l)

/-- `hasTimestamp` of the source: fresh-pattern `test` on the title. -/
def hasTimestamp (titleRaw : List Char) (type : TimestampType) : Bool :=
  hasMatch type titleRaw

/-- `removeTimestamp` of the source: delete every pattern occurrence, then
collapse whitespace runs and trim. -/
def removeTimestamp (titleRaw : List Char) (type : TimestampType) : List Char :=
  trimBoth (collapseWS (replaceAll type [] titleRaw))

/-- `findTimestampPositions` of the source: first-match offset of each kind
(`none` standing for the sentinel `-1`). -/
structure TimestampPositions where
  completion : Option Nat
  start : Option Nat
  pause : Option Nat
  end_ : Option Nat

/-- Compute the four first-match offsets of a title. -/
def findTimestampPositions (titleRaw : List Char) : TimestampPositions :=
  { completion := firstMatchPos .completion titleRaw
    start := firstMatchPos .start titleRaw
    pause := firstMatchPos .pause titleRaw
    end_ := firstMatchPos .end_ titleRaw }

/-- `appendTimestampInOrder` of the source: insert a marker not already
present at the position dictated by the canonical order
Completion < Start < Pause < End. -/
def appendTimestampInOrder (titleRaw : List Char) (type : TimestampType)
    (newTimestamp : List Char) : List Char :=
  let positions := findTimestampPositions titleRaw
  let insertPosition : Nat :=
    match type with
    | .completion =>
      match positions.start with
      | some i => i
      | none =>
        match positions.pause with
        | some i => i
        | none =>
          match positions.end_ with
          | some i => i
          | none => titleRaw.length
    | .start =>
      match positions.pause with
      | some i => i
      | none =>
        match positions.end_ with
        | some i => i
        | none => titleRaw.length
    | .pause =>
      match positions.end_ with
      | some i => i
      | none => titleRaw.length
    | .end_ => titleRaw.length
  if insertPosition = titleRaw.length then
    trimEnd titleRaw ++ ' ' :: newTimestamp
  else
    let before := trimEnd (titleRaw.take insertPosition)
    let after := titleRaw.drop insertPosition
    before ++ ' ' :: newTimestamp ++
      (if after.head? = some ' ' then [] else [' ']) ++ trimStart after

/-- `upsertTimestamp` of the source.  The `stamp` argument stands for the
`moment().format(...)` output of the call (the engine is parameterized by
the clock); the freshly formatted marker is `<glyph> <stamp>`. -/
def upsertTimestamp (titleRaw : List Char) (type : TimestampType)
    (stamp : List Char) : List Char :=
  let newTimestamp := glyph type ++ ' ' :: stamp
  if hasMatch type titleRaw then
    replaceAll type newTimestamp titleRaw
  else
    appendTimestampInOrder titleRaw type newTimestamp

/-- The four lifecycle states of the final revision. -/
inductive KanbanState : Type
  | todo
  | inprogress
  | done
  | onhold
deriving DecidableEq, Repr

/-- `applyStateTransitionTimestamps` of the final (4-state) revision.  `ts`
gives the clock's formatted stamp for each kind at the moment of the call. -/
def applyStateTransitionTimestamps (ts : TimestampType → List Char)
    (titleRaw : List Char) (destinationState sourceState : KanbanState) : List Char :=
  if destinationState = sourceState then titleRaw
  else if destinationState = .inprogress then
    if sourceState = .todo then
      upsertTimestamp titleRaw .start (ts .start)
    else if sourceState = .onhold then
      upsertTimestamp (removeTimestamp titleRaw .pause) .start (ts .start)
    else if sourceState = .done then
      upsertTimestamp
        (removeTimestamp (removeTimestamp titleRaw .end_) .completion)
        .start (ts .start)
    else titleRaw
  else if destinationState = .onhold then
    if sourceState = .inprogress then
      if hasTimestamp titleRaw .start then
        upsertTimestamp titleRaw .pause (ts .pause)
      else titleRaw
    else titleRaw
  else if destinationState = .done then
    upsertTimestamp (removeTimestamp titleRaw .pause) .end_ (ts .end_)
  else
    removeTimestamp
      (removeTimestamp
        (removeTimestamp
          (removeTimestamp titleRaw .start) .pause) .end_) .completion

/-- The source's `determineState`: lane flags in priority order
complete > inProgress > onHold, then the status character.  The flags are
`boolean | undefined` in TS; truthiness is `= some true`. -/
def determineState (shouldMarkItemsInProgress shouldMarkItemsComplete
    shouldMarkItemsOnHold : Option Bool) (checkChar : String) : KanbanState :=
  if shouldMarkItemsComplete.getD false then .done
  else if shouldMarkItemsInProgress.getD false then .inprogress
  else if shouldMarkItemsOnHold.getD false then .onhold
  else if checkChar = "x" || checkChar = "X" then .done
  else if checkChar = "/" then .inprogress
  else .todo

/-! ## The preceding 3-state revision (`src/helpers/timestampUtils.ts`)

The 3-state file defines the same marker engine for its three kinds
(identical pattern strings and identical `upsert`/`remove`/`has` bodies), a
3-way `appendTimestampInOrder` switch, and a transition function without the
OnHold branches and with a different operation order for Done → InProgress. -/

/-- The three marker kinds of the 3-state revision. -/
inductive TimestampType3 : Type
  | start
  | end_
  | completion
deriving DecidableEq, Repr

/-- A 3-state kind denotes the same pattern as the 4-state kind of the same
name. -/
def TimestampType3.toKind : TimestampType3 → TimestampType
  | .start => .start
  | .end_ => .end_
  | .completion => .completion

/-- `findTimestampPositions` of the 3-state revision. -/
structure TimestampPositions3 where
  completion : Option Nat
  start : Option Nat
  end_ : Option Nat

/-- First-match offsets of the three kinds. -/
def findTimestampPositions3 (titleRaw : List Char) : TimestampPositions3 :=
  { completion := firstMatchPos .completion titleRaw
    start := firstMatchPos .start titleRaw
    end_ := firstMatchPos .end_ titleRaw }

/-- `appendTimestampInOrder` of the 3-state revision (no Pause column). -/
def appendTimestampInOrder3 (titleRaw : List Char) (type : TimestampType3)
    (newTimestamp : List Char) : List Char :=
  let positions := findTimestampPositions3 titleRaw
  let insertPosition : Nat :=
    match type with
    | .completion =>
      match positions.start with
      | some i => i
      | none =>
        match positions.end_ with
        | some i => i
        | none => titleRaw.length
    | .start =>
      match positions.end_ with
      | some i => i
      | none => titleRaw.length
    | .end_ => titleRaw.length
  if insertPosition = titleRaw.length then
    trimEnd titleRaw ++ ' ' :: newTimestamp
  else
    let before := trimEnd (titleRaw.take insertPosition)
    let after := titleRaw.drop insertPosition
    before ++ ' ' :: newTimestamp ++
      (if after.head? = some ' ' then [] else [' ']) ++ trimStart after

/-- `upsertTimestamp` of the 3-state revision. -/
def upsertTimestamp3 (titleRaw : List Char) (type : TimestampType3)
    (stamp : List Char) : List Char :=
  let newTimestamp := glyph type.toKind ++ ' ' :: stamp
  if hasMatch type.toKind titleRaw then
    replaceAll type.toKind newTimestamp titleRaw
  else
    appendTimestampInOrder3 titleRaw type newTimestamp

/-- `removeTimestamp` of the 3-state revision (same body as the 4-state
one). -/
def removeTimestamp3 (titleRaw : List Char) (type : TimestampType3) : List Char :=
  trimBoth (collapseWS (replaceAll type.toKind [] titleRaw))

/-- The three lifecycle states of the preceding revision. -/
inductive KanbanState3 : Type
  | todo
  | inprogress
  | done
deriving DecidableEq, Repr

/-- `applyStateTransitionTimestamps` of the 3-state revision.  Note the
operation order for InProgress ← Done: `upsertTimestamp(START)` runs first,
then the End/Completion removals. -/
def applyStateTransitionTimestamps3 (ts : TimestampType3 → List Char)
    (titleRaw : List Char) (destinationState sourceState : KanbanState3) : List Char :=
  if destinationState = sourceState then titleRaw
  else if destinationState = .inprogress then
    let r1 := upsertTimestamp3 titleRaw .start (ts .start)
    if sourceState = .done then
      removeTimestamp3 (removeTimestamp3 r1 .end_) .completion
    else r1
  else if destinationState = .done then
    upsertTimestamp3 titleRaw .end_ (ts .end_)
  else
    removeTimestamp3
      (removeTimestamp3 (removeTimestamp3 titleRaw .start) .end_) .completion

/-- Embedding of the 3-state space into the 4-state space. -/
def KanbanState3.embed : KanbanState3 → KanbanState
  | .todo => .todo
  | .inprogress => .inprogress
  | .done => .done

/-- A fixed sample clock used for concrete evaluations. -/
def tsFix : TimestampType → List Char := fun k =>
  match k with
  | .completion => "2025-06-07".toList
  | _ => "2025-06-07 08:09".toList

/-- The sample clock seen by the 3-state revision. -/
def tsFix3 : TimestampType3 → List Char := fun k => tsFix k.toKind

/-! ## Basic facts about the matcher -/

theorem eatLit_head {p : Char} {ps r : List Char} {c : Char} {cs : List Char}
    (h : eatLit (p :: ps) (c :: cs) = some r) : c = p := by
  simp only [eatLit] at h
  split at h
  · assumption
  · exact absurd h (by simp)

theorem glyph_head (k : TimestampType) : ∃ gs, glyph k = g1 k :: gs := by
  cases k <;> exact ⟨_, rfl⟩

/-- A match can only start at the kind's leading glyph character. -/
theorem matchRest_head {k : TimestampType} {c : Char} {cs r : List Char}
    (h : matchRest k (c :: cs) = some r) : c = g1 k := by
  unfold matchRest at h
  cases hel : eatLit (glyph k) (c :: cs) with
  | none => rw [hel] at h; simp at h
  | some r1 =>
    obtain ⟨gs, hg⟩ := glyph_head k
    rw [hg] at hel
    exact eatLit_head hel

theorem matchRest_eq_none_of_head_ne {k : TimestampType} {c : Char} {cs : List Char}
    (h : c ≠ g1 k) : matchRest k (c :: cs) = none := by
  cases hm : matchRest k (c :: cs) with
  | none => rfl
  | some r => exact absurd (matchRest_head hm) h

/-- Without the leading glyph character there is no match anywhere. -/
theorem hasMatch_eq_false_of_not_mem {k : TimestampType} {l : List Char}
    (h : g1 k ∉ l) : hasMatch k l = false := by
  induction l with
  | nil => rfl
  | cons c cs ih =>
    simp only [hasMatch, Bool.or_eq_false_iff]
    refine ⟨?_, ih (fun hm => h (List.mem_cons_of_mem _ hm))⟩
    rw [matchRest_eq_none_of_head_ne (fun hc => h (hc ▸ List.mem_cons_self c cs))]
    rfl

theorem firstMatchPos_eq_none_of_not_mem {k : TimestampType} {l : List Char}
    (h : g1 k ∉ l) : firstMatchPos k l = none := by
  induction l with
  | nil => rfl
  | cons c cs ih =>
    simp only [firstMatchPos]
    rw [matchRest_eq_none_of_head_ne (fun hc => h (hc ▸ List.mem_cons_self c cs)),
      ih (fun hm => h (List.mem_cons_of_mem _ hm))]
    rfl

theorem isWS_g1 (k : TimestampType) : isWS (g1 k) = false := by
  cases k <;> decide

theorem not_mem_g1_of_allWS {t : List Char} (h : ∀ c ∈ t, isWS c = true)
    (j : TimestampType) : g1 j ∉ t := by
  intro hj
  have hws := h _ hj
  rw [isWS_g1 j] at hws
  exact absurd hws (by simp)

theorem dropWhile_eq_nil_of_all {p : Char → Bool} {l : List Char}
    (h : ∀ c ∈ l, p c = true) : l.dropWhile p = [] := by
  induction l with
  | nil => rfl
  | cons c cs ih =>
    simp only [List.dropWhile]
    rw [h c (List.mem_cons_self c cs)]
    exact ih (fun x hx => h x (List.mem_cons_of_mem _ hx))

theorem trimEnd_eq_nil_of_allWS {l : List Char} (h : ∀ c ∈ l, isWS c = true) :
    trimEnd l = [] := by
  unfold trimEnd
  rw [dropWhile_eq_nil_of_all (fun c hc => h c (List.mem_reverse.mp hc))]
  rfl

/-! ## Claim C1: same-state transitions are a guaranteed no-op -/

/-- C1.  For every lifecycle state `S` and every title `t`,
`applyStateTransitionTimestamps(t, S, S)` returns `t` exactly unchanged: the
same-state call never mutates timestamps or whitespace. -/
theorem c1_same_state_transition_id (ts : TimestampType → List Char)
    (t : List Char) (s : KanbanState) :
    applyStateTransitionTimestamps ts t s s = t := by
  unfold applyStateTransitionTimestamps
  rw [if_pos rfl]

/-! ## Claim C3: the OnHold ← InProgress guard -/

/-- C3.  `applyStateTransitionTimestamps(t, OnHold, InProgress)` upserts a
Pause marker exactly when `t` contains a Start-pattern match; when no Start
marker is present the title is returned unchanged, so no Pause is ever added
without a matching Start. -/
theorem c3_onhold_guard (ts : TimestampType → List Char) (t : List Char) :
    (hasTimestamp t .start = false →
      applyStateTransitionTimestamps ts t .onhold .inprogress = t) ∧
    (hasTimestamp t .start = true →
      applyStateTransitionTimestamps ts t .onhold .inprogress =
        upsertTimestamp t .pause (ts .pause)) := by
  constructor <;> intro h <;> simp [applyStateTransitionTimestamps, h]

/-- Witness for C3 at concrete inputs: a title with no Start marker passes
through unchanged, and the definitions evaluate. -/
theorem c3_onhold_guard_witness :
    applyStateTransitionTimestamps tsFix "Buy milk".toList .onhold .inprogress =
      "Buy milk".toList :=
  (c3_onhold_guard tsFix "Buy milk".toList).1 (by decide)

/-! ## Claim C8: determineState priority order and fallback -/

/-- C8.  `determineState` evaluates the lane flags in the fixed priority
order markComplete > markInProgress > markOnHold; with no flag set it falls
back to the status character: `x`/`X` → done, `/` → inprogress, and any
other character resolves to todo (a recoverable case, not an error). -/
theorem c8_determineState_priority (ip c oh : Option Bool) (ch : String) :
    (c = some true → determineState ip c oh ch = .done) ∧
    (c ≠ some true → ip = some true → determineState ip c oh ch = .inprogress) ∧
    (c ≠ some true → ip ≠ some true → oh = some true →
      determineState ip c oh ch = .onhold) ∧
    (c ≠ some true → ip ≠ some true → oh ≠ some true →
      ((ch = "x" ∨ ch = "X") → determineState ip c oh ch = .done) ∧
      (ch ≠ "x" → ch ≠ "X" → ch = "/" → determineState ip c oh ch = .inprogress) ∧
      (ch ≠ "x" → ch ≠ "X" → ch ≠ "/" → determineState ip c oh ch = .todo)) := by
  have hgd : ∀ o : Option Bool, o = some true → o.getD false = true := by
    intro o h; rw [h]; rfl
  have hgd' : ∀ o : Option Bool, o ≠ some true → o.getD false = false := by
    intro o h
    cases o with
    | none => rfl
    | some b =>
      cases b with
      | true => exact absurd rfl h
      | false => rfl
  refine ⟨?_, ?_, ?_, ?_⟩
  · intro hc
    simp [determineState, hgd c hc]
  · intro hc hip
    simp [determineState, hgd' c hc, hgd ip hip]
  · intro hc hip hoh
    simp [determineState, hgd' c hc, hgd' ip hip, hgd oh hoh]
  · intro hc hip hoh
    refine ⟨?_, ?_, ?_⟩
    · rintro (hx | hx) <;> simp [determineState, hgd' c hc, hgd' ip hip, hgd' oh hoh, hx]
    · intro hx hX hs
      simp [determineState, hgd' c hc, hgd' ip hip, hgd' oh hoh, hx, hX, hs]
    · intro hx hX hs
      simp [determineState, hgd' c hc, hgd' ip hip, hgd' oh hoh, hx, hX, hs]

/-- Witness for C8: an out-of-enum status character with no flags resolves
to todo, and the overridden-priority branch fires for markComplete. -/
theorem c8_determineState_priority_witness :
    determineState none none none "?" = .todo ∧
    determineState (some true) (some true) (some true) "?" = .done := by
  constructor
  · exact (c8_determineState_priority none none none "?").2.2.2
      (by simp) (by simp) (by simp) |>.2.2 (by decide) (by decide) (by decide)
  · exact (c8_determineState_priority (some true) (some true) (some true) "?").1 rfl

/-! ## Claim C10: upsert on an all-whitespace title keeps a leading space -/

/-- C10.  For every marker kind, upserting into the empty title — or any
all-whitespace title — takes the append-at-end path
`trimEnd(title) + ' ' + marker`, producing exactly a single leading space
followed by the fresh marker text. -/
theorem c10_upsert_allws_leading_space (t : List Char) (k : TimestampType)
    (stamp : List Char) (h : ∀ c ∈ t, isWS c = true) :
    upsertTimestamp t k stamp = ' ' :: (glyph k ++ ' ' :: stamp) := by
  have hg := not_mem_g1_of_allWS h
  unfold upsertTimestamp
  rw [hasMatch_eq_false_of_not_mem (hg k)]
  simp only [Bool.false_eq_true, if_false]
  unfold appendTimestampInOrder findTimestampPositions
  rw [firstMatchPos_eq_none_of_not_mem (hg .completion),
    firstMatchPos_eq_none_of_not_mem (hg .start),
    firstMatchPos_eq_none_of_not_mem (hg .pause),
    firstMatchPos_eq_none_of_not_mem (hg .end_)]
  cases k <;>
    simp only [if_pos rfl] <;>
    rw [trimEnd_eq_nil_of_allWS h] <;>
    rfl

/-- Witness for C10 at the empty title. -/
theorem c10_upsert_allws_leading_space_witness :
    upsertTimestamp [] .start (tsFix .start) =
      ' ' :: (glyph .start ++ ' ' :: tsFix .start) :=
  c10_upsert_allws_leading_space [] .start (tsFix .start) (by simp)

/-! ## Counterexamples to the universally-quantified claims -/

/-- C2 counterexample.  A title carrying two End markers still carries two
End-pattern matches after the Done transition (the `/g` replace rewrites
every occurrence instead of collapsing them), so "exactly one End-pattern
match" fails for some titles. -/
theorem c2_counterexample_two_end_markers :
    countMatches .end_ (applyStateTransitionTimestamps tsFix
      "⏹️ 2024-01-01 09:00 ⏹️ 2024-01-01 10:00".toList .done .todo) = 2 := by
  decide

/-- C4 counterexample.  Removing the Pause marker from
`"⏸️⏸️ 2024-01-01 10:11 2024-01-02 10:12"` deletes the single match but the
leftover stray glyph re-joins the remaining digits into a fresh
Pause-pattern match, so `hasTimestamp(removeTimestamp(t, k), k)` can be
true. -/
theorem c4_counterexample_residual_pause :
    hasTimestamp (removeTimestamp
      "⏸️⏸️ 2024-01-01 10:11 2024-01-02 10:12".toList .pause) .pause = true := by
  decide

/-- C5 counterexample.  A title with two Start markers keeps two
Start-pattern matches through a double upsert (the global replace refreshes
both instead of collapsing them into one). -/
theorem c5_counterexample_two_start_markers :
    countMatches .start (upsertTimestamp (upsertTimestamp
      "a ▶️ 2024-01-01 09:00 b ▶️ 2024-01-01 10:00".toList .start (tsFix .start))
      .start (tsFix .start)) = 2 := by
  decide

/-- C7 counterexample.  On `"▶️⏹️ 2024-01-01 10:11 2024-01-02 11:22"` the
Todo transition removes the End match, and the residue re-joins into a live
Start-pattern match: `hasTimestamp` of Start is true afterwards, so the
"clean title" guarantee fails for some inputs. -/
theorem c7_counterexample_residual_start :
    hasTimestamp (applyStateTransitionTimestamps tsFix
      "▶️⏹️ 2024-01-01 10:11 2024-01-02 11:22".toList .todo .done) .start = true := by
  decide

/-- C9 counterexample.  On the title `"a  b"` (two inner spaces) the
4-state Done ← Todo transition first runs the Pause removal, which
normalizes whitespace, while the 3-state version does not; the outputs
differ, so the 4-state version is not a strict superset on the 3-state
space. -/
theorem c9_counterexample_whitespace :
    applyStateTransitionTimestamps tsFix "a  b".toList .done .todo ≠
      applyStateTransitionTimestamps3 tsFix3 "a  b".toList .done .todo := by
  decide

/-! ## Decomposition of matches

`MarkerShape k M` characterizes exactly the texts the kind's pattern
consumes.  `matchRest` succeeds on `M ++ Y` with remainder `Y` for every
`Y` (the pattern is self-delimiting: it always ends on a fixed-width digit
group), and every successful match decomposes this way. -/

theorem eatLit_self (p : List Char) (l : List Char) : eatLit p (p ++ l) = some l := by
  induction p with
  | nil => rfl
  | cons a ps ih => simp [eatLit, ih]

theorem eatLit_split : ∀ p l r, eatLit p l = some r → l = p ++ r := by
  intro p
  induction p with
  | nil => intro l r h; simp [eatLit] at h; simp [h]
  | cons a ps ih =>
    intro l r h
    cases l with
    | nil => simp [eatLit] at h
    | cons c cs =>
      simp only [eatLit] at h
      split at h
      · rename_i hc
        rw [List.cons_append, hc, ih cs r h]
      · exact absurd h (by simp)

theorem eatDigits_append {D : List Char} (hd : ∀ c ∈ D, isDigit c = true) :
    ∀ l, eatDigits D.length (D ++ l) = some l := by
  induction D with
  | nil => intro l; rfl
  | cons a ds ih =>
    intro l
    simp only [List.length_cons, List.cons_append, eatDigits]
    rw [hd a (List.mem_cons_self a ds)]
    simp only [if_true]
    exact ih (fun c hc => hd c (List.mem_cons_of_mem _ hc)) l

theorem eatDigits_split : ∀ n l r, eatDigits n l = some r →
    ∃ D, l = D ++ r ∧ D.length = n ∧ ∀ c ∈ D, isDigit c = true := by
  intro n
  induction n with
  | zero =>
    intro l r h
    simp [eatDigits] at h
    exact ⟨[], by simp [h], rfl, by simp⟩
  | succ m ih =>
    intro l r h
    cases l with
    | nil => simp [eatDigits] at h
    | cons c cs =>
      simp only [eatDigits] at h
      split at h
      · rename_i hc
        obtain ⟨D, heq, hlen, hdig⟩ := ih cs r h
        refine ⟨c :: D, by rw [List.cons_append, heq], by simp [hlen], ?_⟩
        intro x hx
        rcases List.mem_cons.mp hx with hx | hx
        · rw [hx]; exact hc
        · exact hdig x hx
      · exact absurd h (by simp)

theorem eatChar_eval (a : Char) (l : List Char) : eatChar a (a :: l) = some l := by
  simp [eatChar]

theorem eatChar_split {a : Char} {l r : List Char} (h : eatChar a l = some r) :
    l = a :: r := by
  cases l with
  | nil => simp [eatChar] at h
  | cons c cs =>
    simp only [eatChar] at h
    split at h
    · rename_i hc
      simp at h
      rw [hc, h]
    · exact absurd h (by simp)

theorem dropWhile_append_all {p : Char → Bool} {w : List Char}
    (hw : ∀ c ∈ w, p c = true) (l : List Char) :
    (w ++ l).dropWhile p = l.dropWhile p := by
  induction w with
  | nil => rfl
  | cons a ws ih =>
    simp only [List.cons_append, List.dropWhile]
    rw [hw a (List.mem_cons_self a ws)]
    exact ih (fun c hc => hw c (List.mem_cons_of_mem _ hc))

theorem dropWhile_cons_neg {p : Char → Bool} {c : Char} (hc : p c = false)
    (l : List Char) : (c :: l).dropWhile p = c :: l := by
  simp only [List.dropWhile]
  rw [hc]

theorem dropWhile_head_not {p : Char → Bool} :
    ∀ (l : List Char) {c : Char} {cs : List Char},
      l.dropWhile p = c :: cs → p c = false := by
  intro l
  induction l with
  | nil => intro c cs h; simp [List.dropWhile] at h
  | cons a as ih =>
    intro c cs h
    simp only [List.dropWhile] at h
    by_cases ha : p a
    · rw [ha] at h; simp at h; exact ih h
    · rw [Bool.not_eq_true] at ha
      rw [ha] at h
      simp at h
      rw [← h.1]
      exact ha

theorem dropWhile_split (p : Char → Bool) (l : List Char) :
    ∃ w, l = w ++ l.dropWhile p ∧ ∀ c ∈ w, p c = true := by
  refine ⟨l.takeWhile p, (List.takeWhile_append_dropWhile p l).symm, ?_⟩
  intro c hc
  exact List.mem_takeWhile_imp hc

theorem eatWSPlus_eval {c : Char} (hc : isWS c = true) (l : List Char) :
    eatWSPlus (c :: l) = some (l.dropWhile isWS) := by
  simp only [eatWSPlus]
  rw [hc]
  simp

theorem eatWSPlus_split {l r : List Char} (h : eatWSPlus l = some r) :
    ∃ w, l = w ++ r ∧ w ≠ [] ∧ (∀ c ∈ w, isWS c = true) ∧
      (r = [] ∨ ∃ c cs, r = c :: cs ∧ isWS c = false) := by
  cases l with
  | nil => simp [eatWSPlus] at h
  | cons c cs =>
    simp only [eatWSPlus] at h
    split at h
    · rename_i hc
      simp at h
      obtain ⟨w, heq, hall⟩ := dropWhile_split isWS cs
      refine ⟨c :: w, ?_, by simp, ?_, ?_⟩
      · rw [List.cons_append, ← h, ← heq]
      · intro x hx
        rcases List.mem_cons.mp hx with hx | hx
        · rw [hx]; exact hc
        · exact hall x hx
      · rw [← h]
        cases hdw : cs.dropWhile isWS with
        | nil => exact Or.inl rfl
        | cons d ds => exact Or.inr ⟨d, ds, rfl, dropWhile_head_not cs hdw⟩
    · exact absurd h (by simp)

/-- The texts consumed by the kind's pattern. -/
def MarkerShape (k : TimestampType) (M : List Char) : Prop :=
  ∃ w1 D4 D2a D2b tl,
    M = glyph k ++ w1 ++ D4 ++ '-' :: D2a ++ '-' :: D2b ++ tl ∧
    (∀ c ∈ w1, isWS c = true) ∧
    D4.length = 4 ∧ D2a.length = 2 ∧ D2b.length = 2 ∧
    (∀ c ∈ D4, isDigit c = true) ∧ (∀ c ∈ D2a, isDigit c = true) ∧
    (∀ c ∈ D2b, isDigit c = true) ∧
    ((hasTime k = false ∧ tl = []) ∨
     (hasTime k = true ∧ ∃ w2 H2a H2b, tl = w2 ++ H2a ++ ':' :: H2b ∧
       w2 ≠ [] ∧ (∀ c ∈ w2, isWS c = true) ∧
       H2a.length = 2 ∧ H2b.length = 2 ∧
       (∀ c ∈ H2a, isDigit c = true) ∧ (∀ c ∈ H2b, isDigit c = true)))

theorem isWS_eq_false_of_isDigit {c : Char} (h : isDigit c = true) : isWS c = false := by
  unfold isDigit at h
  unfold isWS
  simp only [Bool.and_eq_true, decide_eq_true_eq] at h
  simp only [Bool.or_eq_false_iff, decide_eq_false_iff_not, Bool.and_eq_false_iff]
  omega

theorem exists_cons_of_length_pos {l : List Char} {n : Nat} (h : l.length = n + 1) :
    ∃ c cs, l = c :: cs ∧ cs.length = n := by
  cases l with
  | nil => simp at h
  | cons c cs => exact ⟨c, cs, rfl, by simpa using h⟩

/-- Completeness: a shape text matches with any continuation, leaving
exactly the continuation. -/
theorem matchRest_of_shape {k : TimestampType} {M : List Char}
    (h : MarkerShape k M) (Y : List Char) : matchRest k (M ++ Y) = some Y := by
  obtain ⟨w1, D4, D2a, D2b, tl, hM, hw1, h4, h2a, h2b, hd4, hd2a, hd2b, htl⟩ := h
  obtain ⟨a4, r4, h4eq, h4len⟩ := exists_cons_of_length_pos (n := 3) h4
  have hdw4 : isWS a4 = false :=
    isWS_eq_false_of_isDigit (hd4 a4 (h4eq ▸ List.mem_cons_self _ _))
  unfold matchRest
  rw [hM]
  simp only [List.append_assoc, List.cons_append]
  rw [eatLit_self]
  simp only [Option.some_bind]
  rw [dropWhile_append_all hw1, h4eq]
  simp only [List.cons_append]
  rw [dropWhile_cons_neg hdw4, ← List.cons_append, ← h4eq]
  have hstep4 : eatDigits 4 (D4 ++ '-' :: (D2a ++ '-' :: (D2b ++ (tl ++ Y)))) =
      some ('-' :: (D2a ++ '-' :: (D2b ++ (tl ++ Y)))) := by
    rw [← h4]
    exact eatDigits_append hd4 _
  rw [hstep4]
  simp only [Option.some_bind]
  rw [eatChar_eval]
  simp only [Option.some_bind]
  have hstep2a : eatDigits 2 (D2a ++ '-' :: (D2b ++ (tl ++ Y))) =
      some ('-' :: (D2b ++ (tl ++ Y))) := by
    rw [← h2a]
    exact eatDigits_append hd2a _
  rw [hstep2a]
  simp only [Option.some_bind]
  rw [eatChar_eval]
  simp only [Option.some_bind]
  have hstep2b : eatDigits 2 (D2b ++ (tl ++ Y)) = some (tl ++ Y) := by
    rw [← h2b]
    exact eatDigits_append hd2b _
  rw [hstep2b]
  simp only [Option.some_bind]
  rcases htl with ⟨hnt, htleq⟩ | ⟨ht, w2, H2a, H2b, htleq, hw2ne, hw2, hh2a, hh2b, hhd2a, hhd2b⟩
  · rw [hnt, htleq]
    simp
  · rw [ht]
    simp only [if_true]
    subst htleq
    obtain ⟨c2, w2t, hw2eq⟩ := List.exists_cons_of_ne_nil hw2ne
    obtain ⟨b2a, s2a, hb2a, hb2alen⟩ := exists_cons_of_length_pos (n := 1) hh2a
    have hwc2 : isWS c2 = true := hw2 c2 (hw2eq ▸ List.mem_cons_self _ _)
    have hdb2a : isWS b2a = false :=
      isWS_eq_false_of_isDigit (hhd2a b2a (hb2a ▸ List.mem_cons_self _ _))
    rw [hw2eq]
    simp only [List.append_assoc, List.cons_append]
    rw [eatWSPlus_eval hwc2]
    simp only [Option.some_bind]
    rw [dropWhile_append_all (fun c hc => hw2 c (hw2eq ▸ List.mem_cons_of_mem _ hc)), hb2a]
    simp only [List.cons_append]
    rw [dropWhile_cons_neg hdb2a, ← List.cons_append, ← hb2a]
    have hstepH2a : eatDigits 2 (H2a ++ ':' :: (H2b ++ Y)) = some (':' :: (H2b ++ Y)) := by
      rw [← hh2a]
      exact eatDigits_append hhd2a _
    rw [hstepH2a]
    simp only [Option.some_bind]
    rw [eatChar_eval]
    simp only [Option.some_bind]
    rw [← hh2b]
    exact eatDigits_append hhd2b Y

/-- Soundness: every successful match decomposes as a shape text followed by
the remainder. -/
theorem matchRest_split {k : TimestampType} {l r : List Char}
    (h : matchRest k l = some r) : ∃ M, l = M ++ r ∧ MarkerShape k M := by
  unfold matchRest at h
  cases h1 : eatLit (glyph k) l with
  | none => rw [h1] at h; simp at h
  | some r1 =>
    rw [h1] at h; simp only [Option.some_bind] at h
    cases h2 : eatDigits 4 (r1.dropWhile isWS) with
    | none => rw [h2] at h; simp at h
    | some r2 =>
      rw [h2] at h; simp only [Option.some_bind] at h
      cases h3 : eatChar '-' r2 with
      | none => rw [h3] at h; simp at h
      | some r3 =>
        rw [h3] at h; simp only [Option.some_bind] at h
        cases h4 : eatDigits 2 r3 with
        | none => rw [h4] at h; simp at h
        | some r4 =>
          rw [h4] at h; simp only [Option.some_bind] at h
          cases h5 : eatChar '-' r4 with
          | none => rw [h5] at h; simp at h
          | some r5 =>
            rw [h5] at h; simp only [Option.some_bind] at h
            cases h6 : eatDigits 2 r5 with
            | none => rw [h6] at h; simp at h
            | some r6 =>
              rw [h6] at h; simp only [Option.some_bind] at h
              have e1 := eatLit_split _ _ _ h1
              obtain ⟨w1, e1b, hw1⟩ := dropWhile_split isWS r1
              obtain ⟨D4, e2, h4len, hd4⟩ := eatDigits_split _ _ _ h2
              have e3 := eatChar_split h3
              obtain ⟨D2a, e4, h2alen, hd2a⟩ := eatDigits_split _ _ _ h4
              have e5 := eatChar_split h5
              obtain ⟨D2b, e6, h2blen, hd2b⟩ := eatDigits_split _ _ _ h6
              by_cases ht : hasTime k
              · rw [if_pos ht] at h
                cases h7 : eatWSPlus r6 with
                | none => rw [h7] at h; simp at h
                | some r7 =>
                  rw [h7] at h; simp only [Option.some_bind] at h
                  cases h8 : eatDigits 2 r7 with
                  | none => rw [h8] at h; simp at h
                  | some r8 =>
                    rw [h8] at h; simp only [Option.some_bind] at h
                    cases h9 : eatChar ':' r8 with
                    | none => rw [h9] at h; simp at h
                    | some r9 =>
                      rw [h9] at h; simp only [Option.some_bind] at h
                      obtain ⟨w2, e7, hw2ne, hw2, _⟩ := eatWSPlus_split h7
                      obtain ⟨H2a, e8, hh2alen, hhd2a⟩ := eatDigits_split _ _ _ h8
                      have e9 := eatChar_split h9
                      obtain ⟨H2b, e10, hh2blen, hhd2b⟩ := eatDigits_split _ _ _ h
                      refine ⟨glyph k ++ w1 ++ D4 ++ '-' :: D2a ++ '-' :: D2b ++
                        (w2 ++ H2a ++ ':' :: H2b), ?_, ?_⟩
                      · rw [e1, e1b, e2, e3, e4, e5, e6, e7, e8, e9, e10]
                        simp only [List.append_assoc, List.cons_append]
                      · exact ⟨w1, D4, D2a, D2b, w2 ++ H2a ++ ':' :: H2b, rfl, hw1,
                          h4len, h2alen, h2blen, hd4, hd2a, hd2b,
                          Or.inr ⟨ht, w2, H2a, H2b, rfl, hw2ne, hw2,
                            hh2alen, hh2blen, hhd2a, hhd2b⟩⟩
              · rw [if_neg ht] at h
                simp at h
                subst h
                refine ⟨glyph k ++ w1 ++ D4 ++ '-' :: D2a ++ '-' :: D2b ++ [], ?_, ?_⟩
                · rw [e1, e1b, e2, e3, e4, e5, e6]
                  simp only [List.append_assoc, List.cons_append, List.append_nil]
                · exact ⟨w1, D4, D2a, D2b, [], rfl, hw1, h4len, h2alen, h2blen,
                    hd4, hd2a, hd2b,
                    Or.inl ⟨Bool.not_eq_true _ ▸ ht, rfl⟩⟩

theorem replaceAll_cons_match {k : TimestampType} {rep c cs rest}
    (hm : matchRest k (c :: cs) = some rest) :
    replaceAll k rep (c :: cs) = rep ++ replaceAll k rep rest := by
  rw [replaceAll_cons, hm]

theorem replaceAll_cons_nomatch {k : TimestampType} {rep c cs}
    (hm : matchRest k (c :: cs) = none) :
    replaceAll k rep (c :: cs) = c :: replaceAll k rep cs := by
  rw [replaceAll_cons, hm]

theorem countMatches_cons_match {k : TimestampType} {c cs rest}
    (hm : matchRest k (c :: cs) = some rest) :
    countMatches k (c :: cs) = countMatches k rest + 1 := by
  rw [countMatches_cons, hm]

theorem countMatches_cons_nomatch {k : TimestampType} {c cs}
    (hm : matchRest k (c :: cs) = none) :
    countMatches k (c :: cs) = countMatches k cs := by
  rw [countMatches_cons, hm]

theorem glyph_ne_nil (k : TimestampType) : glyph k ≠ [] := by
  cases k <;> simp [glyph]

theorem shape_ne_nil {k : TimestampType} {M : List Char} (h : MarkerShape k M) :
    M ≠ [] := by
  obtain ⟨w1, D4, D2a, D2b, tl, hM, _⟩ := h
  rw [hM]
  simp [glyph_ne_nil k]

theorem shape_head {k : TimestampType} {M : List Char} (h : MarkerShape k M) :
    ∃ Ms, M = g1 k :: Ms := by
  obtain ⟨w1, D4, D2a, D2b, tl, hM, _⟩ := h
  obtain ⟨gs, hg⟩ := glyph_head k
  rw [hM, hg]
  exact ⟨_, rfl⟩

/-- Every character of a match text is a glyph character, whitespace, a
digit, a dash or a colon. -/
theorem shape_mem {k : TimestampType} {M : List Char} (h : MarkerShape k M) :
    ∀ c ∈ M, c ∈ glyph k ∨ isWS c = true ∨ isDigit c = true ∨ c = '-' ∨ c = ':' := by
  obtain ⟨w1, D4, D2a, D2b, tl, hM, hw1, _, _, _, hd4, hd2a, hd2b, htl⟩ := h
  intro c hc
  rw [hM] at hc
  simp only [List.append_assoc, List.cons_append, List.mem_append, List.mem_cons] at hc
  rcases hc with hc | hc | hc | hc | hc | hc | hc
  · exact Or.inl hc
  · exact Or.inr (Or.inl (hw1 c hc))
  · exact Or.inr (Or.inr (Or.inl (hd4 c hc)))
  · exact Or.inr (Or.inr (Or.inr (Or.inl hc)))
  · exact Or.inr (Or.inr (Or.inl (hd2a c hc)))
  · exact Or.inr (Or.inr (Or.inr (Or.inl hc)))
  · rcases hc with hc | hc
    · exact Or.inr (Or.inr (Or.inl (hd2b c hc)))
    · rcases htl with ⟨_, htleq⟩ | ⟨_, w2, H2a, H2b, htleq, _, hw2, _, _, hhd2a, hhd2b⟩
      · rw [htleq] at hc; simp at hc
      · rw [htleq] at hc
        simp only [List.append_assoc, List.mem_append, List.mem_cons] at hc
        rcases hc with hc | hc | hc | hc
        · exact Or.inr (Or.inl (hw2 c hc))
        · exact Or.inr (Or.inr (Or.inl (hhd2a c hc)))
        · exact Or.inr (Or.inr (Or.inr (Or.inr hc)))
        · exact Or.inr (Or.inr (Or.inl (hhd2b c hc)))

theorem g1_not_mem_glyph {j k : TimestampType} (hne : j ≠ k) : g1 j ∉ glyph k := by
  cases j <;> cases k <;> first
    | exact absurd rfl hne
    | decide

theorem isDigit_g1 (j : TimestampType) : isDigit (g1 j) = false := by
  cases j <;> decide

theorem g1_ne_dash (j : TimestampType) : g1 j ≠ '-' := by
  cases j <;> decide

theorem g1_ne_colon (j : TimestampType) : g1 j ≠ ':' := by
  cases j <;> decide

theorem g1_ne_space (j : TimestampType) : g1 j ≠ ' ' := by
  cases j <;> decide

/-- The leading glyph character of a different kind never occurs inside a
match text. -/
theorem g1_not_mem_shape {j k : TimestampType} {M : List Char} (hne : j ≠ k)
    (h : MarkerShape k M) : g1 j ∉ M := by
  intro hmem
  rcases shape_mem h _ hmem with hc | hc | hc | hc | hc
  · exact g1_not_mem_glyph hne hc
  · rw [isWS_g1 j] at hc; exact absurd hc (by simp)
  · rw [isDigit_g1 j] at hc; exact absurd hc (by simp)
  · exact g1_ne_dash j hc
  · exact g1_ne_colon j hc

theorem getLast?_append_of_ne_nil {l₁ l₂ : List Char} (h : l₂ ≠ []) :
    (l₁ ++ l₂).getLast? = l₂.getLast? := by
  induction l₁ with
  | nil => rfl
  | cons c cs ih =>
    rw [List.cons_append, List.getLast?_cons, ih]
    cases l₂ with
    | nil => exact absurd rfl h
    | cons d ds => simp [List.getLast?_cons]

/-- A match text ends with a digit. -/
theorem shape_last_digit {k : TimestampType} {M : List Char} (h : MarkerShape k M) :
    ∃ d, M.getLast? = some d ∧ isDigit d = true := by
  obtain ⟨w1, D4, D2a, D2b, tl, hM, hw1, _, _, h2b, _, _, hd2b, htl⟩ := h
  rcases htl with ⟨_, htleq⟩ | ⟨_, w2, H2a, H2b, htleq, _, _, _, hh2b, _, hhd2b⟩
  · subst htleq
    obtain ⟨b1, s1, hb1, hs1⟩ := exists_cons_of_length_pos (n := 1) h2b
    obtain ⟨b2, s2, hb2, hs2⟩ := exists_cons_of_length_pos (n := 0) hs1
    have hs2nil : s2 = [] := List.length_eq_zero.mp hs2
    have hD2b : D2b = [b1, b2] := by rw [hb1, hb2, hs2nil]
    refine ⟨b2, ?_, hd2b b2 (by rw [hD2b]; simp)⟩
    rw [hM, hD2b]
    simp only [List.append_assoc, List.append_nil]
    rw [getLast?_append_of_ne_nil (by simp)]
    rw [getLast?_append_of_ne_nil (by simp)]
    simp [List.getLast?_cons]
  · subst htleq
    obtain ⟨b1, s1, hb1, hs1⟩ := exists_cons_of_length_pos (n := 1) hh2b
    obtain ⟨b2, s2, hb2, hs2⟩ := exists_cons_of_length_pos (n := 0) hs1
    have hs2nil : s2 = [] := List.length_eq_zero.mp hs2
    have hH2b : H2b = [b1, b2] := by rw [hb1, hb2, hs2nil]
    refine ⟨b2, ?_, hhd2b b2 (by rw [hH2b]; simp)⟩
    rw [hM, hH2b]
    simp only [List.append_assoc]
    rw [getLast?_append_of_ne_nil (by simp)]
    rw [getLast?_append_of_ne_nil (by simp)]
    rw [getLast?_append_of_ne_nil (by simp)]
    rw [getLast?_append_of_ne_nil (by simp)]
    rw [getLast?_append_of_ne_nil (by simp)]
    simp [List.getLast?_cons]

/-! ## Clean titles and valid clock stamps -/

/-- A title is clean for a kind when every occurrence of the kind's leading
glyph character begins a full pattern match.  (Well-formed titles — at most
one properly formatted marker of each kind — are clean for every kind.) -/
def cleanFor (k : TimestampType) : List Char → Bool
  | [] => true
  | c :: cs =>
    (if c = g1 k then (matchRest k (c :: cs)).isSome else true) && cleanFor k cs

theorem cleanFor_cons_iff {k : TimestampType} {c : Char} {cs : List Char} :
    cleanFor k (c :: cs) = true ↔
      ((c = g1 k → (matchRest k (c :: cs)).isSome = true) ∧ cleanFor k cs = true) := by
  by_cases hc : c = g1 k <;> simp [cleanFor, hc]

theorem cleanFor_tail {k : TimestampType} {c : Char} {cs : List Char}
    (h : cleanFor k (c :: cs) = true) : cleanFor k cs = true :=
  (cleanFor_cons_iff.mp h).2

theorem cleanFor_head {k : TimestampType} {c : Char} {cs : List Char}
    (h : cleanFor k (c :: cs) = true) (hc : c = g1 k) :
    ∃ r, matchRest k (c :: cs) = some r := by
  have := (cleanFor_cons_iff.mp h).1 hc
  cases hm : matchRest k (c :: cs) with
  | none => rw [hm] at this; simp at this
  | some r => exact ⟨r, rfl⟩

theorem cleanFor_suffix {k : TimestampType} :
    ∀ (a l : List Char), cleanFor k (a ++ l) = true → cleanFor k l = true := by
  intro a
  induction a with
  | nil => intro l h; exact h
  | cons c cs ih => intro l h; exact ih l (cleanFor_tail h)

theorem cleanFor_of_not_mem {k : TimestampType} {l : List Char}
    (h : g1 k ∉ l) : cleanFor k l = true := by
  induction l with
  | nil => rfl
  | cons c cs ih =>
    rw [cleanFor_cons_iff]
    refine ⟨fun hc => absurd (hc ▸ List.mem_cons_self c cs) h,
      ih (fun hm => h (List.mem_cons_of_mem _ hm))⟩

theorem cleanFor_cons_ne {k : TimestampType} {c : Char} {cs : List Char}
    (hc : c ≠ g1 k) : cleanFor k (c :: cs) = cleanFor k cs := by
  simp [cleanFor, hc]

theorem g1_not_mem_of_cleanFor_of_not_hasMatch {k : TimestampType} {l : List Char}
    (hc : cleanFor k l = true) (hm : hasMatch k l = false) : g1 k ∉ l := by
  induction l with
  | nil => simp
  | cons c cs ih =>
    simp only [hasMatch, Bool.or_eq_false_iff] at hm
    intro hmem
    rcases List.mem_cons.mp hmem with hmem | hmem
    · obtain ⟨r, hr⟩ := cleanFor_head hc hmem.symm
      rw [hr] at hm
      exact absurd hm.1 (by simp)
    · exact ih (cleanFor_tail hc) hm.2 hmem

/-- Positionwise character-class check. -/
def chk : List (Char → Bool) → List Char → Bool
  | [], [] => true
  | p :: ps, c :: cs => p c && chk ps cs
  | _, _ => false

/-- Character classes of a formatted `YYYY-MM-DD` date. -/
def dateSpec : List (Char → Bool) :=
  [isDigit, isDigit, isDigit, isDigit, fun c => c = '-', isDigit, isDigit,
   fun c => c = '-', isDigit, isDigit]

/-- Character classes of a formatted ` HH:mm` time-of-day tail. -/
def timeSpec : List (Char → Bool) :=
  [fun c => c = ' ', isDigit, isDigit, fun c => c = ':', isDigit, isDigit]

/-- The stamp has the exact shape `moment().format` produces for the kind:
`YYYY-MM-DD` for Completion and `YYYY-MM-DD HH:mm` for the others. -/
def validStamp (k : TimestampType) (s : List Char) : Bool :=
  if hasTime k then chk (dateSpec ++ timeSpec) s else chk dateSpec s

theorem chk_cons {p : Char → Bool} {ps : List (Char → Bool)} {s : List Char}
    (h : chk (p :: ps) s = true) :
    ∃ c cs, s = c :: cs ∧ p c = true ∧ chk ps cs = true := by
  cases s with
  | nil => simp [chk] at h
  | cons c cs =>
    simp only [chk, Bool.and_eq_true] at h
    exact ⟨c, cs, rfl, h.1, h.2⟩

theorem chk_nil_spec {s : List Char} (h : chk [] s = true) : s = [] := by
  cases s with
  | nil => rfl
  | cons c cs => simp [chk] at h

/-- The fresh marker `<glyph> <stamp>` of a valid stamp is a match text. -/
theorem markerShape_of_validStamp {k : TimestampType} {s : List Char}
    (h : validStamp k s = true) : MarkerShape k (glyph k ++ ' ' :: s) := by
  unfold validStamp at h
  by_cases ht : hasTime k
  · rw [if_pos ht] at h
    simp only [dateSpec, timeSpec, List.cons_append, List.nil_append] at h
    obtain ⟨a1, s1, he1, hp1, h⟩ := chk_cons h
    obtain ⟨a2, s2, he2, hp2, h⟩ := chk_cons h
    obtain ⟨a3, s3, he3, hp3, h⟩ := chk_cons h
    obtain ⟨a4, s4, he4, hp4, h⟩ := chk_cons h
    obtain ⟨d1, s5, he5, hp5, h⟩ := chk_cons h
    obtain ⟨b1, s6, he6, hp6, h⟩ := chk_cons h
    obtain ⟨b2, s7, he7, hp7, h⟩ := chk_cons h
    obtain ⟨d2, s8, he8, hp8, h⟩ := chk_cons h
    obtain ⟨e1, s9, he9, hp9, h⟩ := chk_cons h
    obtain ⟨e2, s10, he10, hp10, h⟩ := chk_cons h
    obtain ⟨sp, s11, he11, hp11, h⟩ := chk_cons h
    obtain ⟨f1, s12, he12, hp12, h⟩ := chk_cons h
    obtain ⟨f2, s13, he13, hp13, h⟩ := chk_cons h
    obtain ⟨co, s14, he14, hp14, h⟩ := chk_cons h
    obtain ⟨m1, s15, he15, hp15, h⟩ := chk_cons h
    obtain ⟨m2, s16, he16, hp16, h⟩ := chk_cons h
    have hs16 := chk_nil_spec h
    simp only [decide_eq_true_eq] at hp5 hp8 hp11 hp14
    subst he1 he2 he3 he4 he5 he6 he7 he8 he9 he10 he11 he12 he13 he14 he15 he16
    subst hs16 hp5 hp8 hp11 hp14
    refine ⟨[' '], [a1, a2, a3, a4], [b1, b2], [e1, e2],
      [' '] ++ [f1, f2] ++ ':' :: [m1, m2], ?_, ?_, rfl, rfl, rfl, ?_, ?_, ?_, ?_⟩
    · simp
    · intro c hc; simp at hc; subst hc; decide
    · intro c hc; simp at hc
      rcases hc with hc | hc | hc | hc <;> subst hc <;> assumption
    · intro c hc; simp at hc
      rcases hc with hc | hc <;> subst hc <;> assumption
    · intro c hc; simp at hc
      rcases hc with hc | hc <;> subst hc <;> assumption
    · refine Or.inr ⟨ht, [' '], [f1, f2], [m1, m2], by simp, by simp, ?_, rfl, rfl, ?_, ?_⟩
      · intro c hc; simp at hc; subst hc; decide
      · intro c hc; simp at hc
        rcases hc with hc | hc <;> subst hc <;> assumption
      · intro c hc; simp at hc
        rcases hc with hc | hc <;> subst hc <;> assumption
  · rw [if_neg ht] at h
    simp only [dateSpec, List.cons_append, List.nil_append] at h
    obtain ⟨a1, s1, he1, hp1, h⟩ := chk_cons h
    obtain ⟨a2, s2, he2, hp2, h⟩ := chk_cons h
    obtain ⟨a3, s3, he3, hp3, h⟩ := chk_cons h
    obtain ⟨a4, s4, he4, hp4, h⟩ := chk_cons h
    obtain ⟨d1, s5, he5, hp5, h⟩ := chk_cons h
    obtain ⟨b1, s6, he6, hp6, h⟩ := chk_cons h
    obtain ⟨b2, s7, he7, hp7, h⟩ := chk_cons h
    obtain ⟨d2, s8, he8, hp8, h⟩ := chk_cons h
    obtain ⟨e1, s9, he9, hp9, h⟩ := chk_cons h
    obtain ⟨e2, s10, he10, hp10, h⟩ := chk_cons h
    have hs10 := chk_nil_spec h
    simp only [decide_eq_true_eq] at hp5 hp8
    subst he1 he2 he3 he4 he5 he6 he7 he8 he9 he10
    subst hs10 hp5 hp8
    refine ⟨[' '], [a1, a2, a3, a4], [b1, b2], [e1, e2], [], ?_, ?_, rfl, rfl, rfl,
      ?_, ?_, ?_, Or.inl ⟨Bool.not_eq_true _ ▸ ht, rfl⟩⟩
    · simp
    · intro c hc; simp at hc; subst hc; decide
    · intro c hc; simp at hc
      rcases hc with hc | hc | hc | hc <;> subst hc <;> assumption
    · intro c hc; simp at hc
      rcases hc with hc | hc <;> subst hc <;> assumption
    · intro c hc; simp at hc
      rcases hc with hc | hc <;> subst hc <;> assumption

/-! ## Scan lemmas for replace, count and clean titles -/

theorem mem_replaceAll {k : TimestampType} {rep : List Char} :
    ∀ l x, x ∈ replaceAll k rep l → x ∈ l ∨ x ∈ rep := by
  have H : ∀ n l, l.length ≤ n → ∀ x, x ∈ replaceAll k rep l → x ∈ l ∨ x ∈ rep := by
    intro n
    induction n with
    | zero =>
      intro l hl x hx
      cases l with
      | nil => rw [replaceAll_nil] at hx; simp at hx
      | cons c cs => simp at hl
    | succ n ih =>
      intro l hl x hx
      cases l with
      | nil => rw [replaceAll_nil] at hx; simp at hx
      | cons c cs =>
        cases hm : matchRest k (c :: cs) with
        | some rest =>
          rw [replaceAll_cons_match hm] at hx
          rcases List.mem_append.mp hx with hx | hx
          · exact Or.inr hx
          · have hlt := matchRest_length hm
            simp only [List.length_cons] at hl hlt
            rcases ih rest (by omega) x hx with hx | hx
            · obtain ⟨M, hMeq, _⟩ := matchRest_split hm
              exact Or.inl (hMeq ▸ List.mem_append.mpr (Or.inr hx))
            · exact Or.inr hx
        | none =>
          rw [replaceAll_cons_nomatch hm] at hx
          rcases List.mem_cons.mp hx with hx | hx
          · exact Or.inl (hx ▸ List.mem_cons_self _ _)
          · simp only [List.length_cons] at hl
            rcases ih cs (by omega) x hx with hx | hx
            · exact Or.inl (List.mem_cons_of_mem _ hx)
            · exact Or.inr hx
  exact fun l => H l.length l (Nat.le_refl _)

theorem replaceAll_append_free {k : TimestampType} {rep A : List Char}
    (hA : g1 k ∉ A) (B : List Char) :
    replaceAll k rep (A ++ B) = A ++ replaceAll k rep B := by
  induction A with
  | nil => rfl
  | cons c cs ih =>
    have hc : c ≠ g1 k := fun hc => hA (hc ▸ List.mem_cons_self c cs)
    rw [List.cons_append, replaceAll_cons_nomatch (matchRest_eq_none_of_head_ne hc),
      ih (fun hm => hA (List.mem_cons_of_mem _ hm))]
    simp

theorem replaceAll_eq_self_of_not_mem {k : TimestampType} {rep l : List Char}
    (h : g1 k ∉ l) : replaceAll k rep l = l := by
  have := @replaceAll_append_free k rep l h []
  rw [List.append_nil, replaceAll_nil, List.append_nil] at this
  exact this

theorem countMatches_append_free {k : TimestampType} {A : List Char}
    (hA : g1 k ∉ A) (B : List Char) :
    countMatches k (A ++ B) = countMatches k B := by
  induction A with
  | nil => rfl
  | cons c cs ih =>
    have hc : c ≠ g1 k := fun hc => hA (hc ▸ List.mem_cons_self c cs)
    rw [List.cons_append, countMatches_cons_nomatch (matchRest_eq_none_of_head_ne hc),
      ih (fun hm => hA (List.mem_cons_of_mem _ hm))]

theorem countMatches_eq_zero_of_not_mem {k : TimestampType} {l : List Char}
    (h : g1 k ∉ l) : countMatches k l = 0 := by
  have := countMatches_append_free h []
  rw [List.append_nil] at this
  rw [this, countMatches_nil]

theorem countMatches_shape_append {k : TimestampType} {M : List Char}
    (h : MarkerShape k M) (X : List Char) :
    countMatches k (M ++ X) = countMatches k X + 1 := by
  obtain ⟨Ms, hMs⟩ := shape_head h
  have hm : matchRest k (M ++ X) = some X := matchRest_of_shape h X
  rw [hMs] at hm ⊢
  rw [List.cons_append] at hm ⊢
  rw [countMatches_cons_match hm]

theorem one_le_countMatches_of_hasMatch {k : TimestampType} :
    ∀ l, hasMatch k l = true → 1 ≤ countMatches k l := by
  intro l
  induction l with
  | nil => intro h; simp [hasMatch] at h
  | cons c cs ih =>
    intro h
    simp only [hasMatch, Bool.or_eq_true] at h
    cases hm : matchRest k (c :: cs) with
    | some rest => rw [countMatches_cons_match hm]; omega
    | none =>
      rw [countMatches_cons_nomatch hm]
      rcases h with h | h
      · rw [hm] at h; simp at h
      · exact ih h

theorem hasMatch_of_one_le_countMatches {k : TimestampType} :
    ∀ l, 1 ≤ countMatches k l → hasMatch k l = true := by
  intro l
  induction l with
  | nil => intro h; rw [countMatches_nil] at h; omega
  | cons c cs ih =>
    intro h
    simp only [hasMatch, Bool.or_eq_true]
    cases hm : matchRest k (c :: cs) with
    | some rest => exact Or.inl rfl
    | none =>
      rw [countMatches_cons_nomatch hm] at h
      exact Or.inr (ih h)

theorem cleanFor_append_free {k : TimestampType} {A : List Char}
    (hA : g1 k ∉ A) (X : List Char) :
    cleanFor k (A ++ X) = cleanFor k X := by
  induction A with
  | nil => rfl
  | cons c cs ih =>
    have hc : c ≠ g1 k := fun hc => hA (hc ▸ List.mem_cons_self c cs)
    rw [List.cons_append, cleanFor_cons_ne hc,
      ih (fun hm => hA (List.mem_cons_of_mem _ hm))]

/-- In a match text the leading glyph character occurs only at the head. -/
theorem shape_head_not_mem_tail {k : TimestampType} {M : List Char}
    (h : MarkerShape k M) : ∃ Ms, M = g1 k :: Ms ∧ g1 k ∉ Ms := by
  obtain ⟨w1, D4, D2a, D2b, tl, hM, hw1, _, _, _, hd4, hd2a, hd2b, htl⟩ := h
  have hgt : ∃ gt, glyph k = g1 k :: gt ∧ g1 k ∉ gt := by
    cases k <;> exact ⟨_, rfl, by decide⟩
  obtain ⟨gt, hgteq, hgtnm⟩ := hgt
  rw [hM, hgteq]
  refine ⟨gt ++ w1 ++ D4 ++ '-' :: D2a ++ '-' :: D2b ++ tl, by simp, ?_⟩
  intro hmem
  simp only [List.append_assoc, List.cons_append, List.mem_append, List.mem_cons] at hmem
  have hno : ∀ hc : g1 k ∈ tl, False := by
    intro hc
    rcases htl with ⟨_, htleq⟩ | ⟨_, w2, H2a, H2b, htleq, _, hw2, _, _, hhd2a, hhd2b⟩
    · rw [htleq] at hc; simp at hc
    · rw [htleq] at hc
      simp only [List.append_assoc, List.mem_append, List.mem_cons] at hc
      rcases hc with hc | hc | hc | hc
      · have := hw2 _ hc; rw [isWS_g1] at this; exact absurd this (by simp)
      · have := hhd2a _ hc; rw [isDigit_g1] at this; exact absurd this (by simp)
      · exact g1_ne_colon k hc
      · have := hhd2b _ hc; rw [isDigit_g1] at this; exact absurd this (by simp)
  rcases hmem with hc | hc | hc | hc | hc | hc | hc
  · exact hgtnm hc
  · have := hw1 _ hc; rw [isWS_g1] at this; exact absurd this (by simp)
  · have := hd4 _ hc; rw [isDigit_g1] at this; exact absurd this (by simp)
  · exact g1_ne_dash k hc
  · have := hd2a _ hc; rw [isDigit_g1] at this; exact absurd this (by simp)
  · exact g1_ne_dash k hc
  · rcases hc with hc | hc
    · have := hd2b _ hc; rw [isDigit_g1] at this; exact absurd this (by simp)
    · exact hno hc

theorem cleanFor_shape_append {k : TimestampType} {M : List Char}
    (h : MarkerShape k M) {X : List Char} (hX : cleanFor k X = true) :
    cleanFor k (M ++ X) = true := by
  obtain ⟨Ms, hMeq, hMnm⟩ := shape_head_not_mem_tail h
  rw [hMeq, List.cons_append, cleanFor_cons_iff]
  constructor
  · intro _
    rw [← List.cons_append, ← hMeq, matchRest_of_shape h X]
    rfl
  · rw [cleanFor_append_free hMnm]
    exact hX

theorem count_replaceAll_marker {k : TimestampType} {m : List Char}
    (hm : MarkerShape k m) :
    ∀ t, cleanFor k t = true →
      countMatches k (replaceAll k m t) = countMatches k t := by
  have H : ∀ n t, t.length ≤ n → cleanFor k t = true →
      countMatches k (replaceAll k m t) = countMatches k t := by
    intro n
    induction n with
    | zero =>
      intro t ht _
      cases t with
      | nil => rfl
      | cons c cs => simp at ht
    | succ n ih =>
      intro t ht hc
      cases t with
      | nil => rfl
      | cons c cs =>
        cases hmt : matchRest k (c :: cs) with
        | some rest =>
          rw [replaceAll_cons_match hmt]
          obtain ⟨M, hMeq, hMs⟩ := matchRest_split hmt
          have hcr : cleanFor k rest = true := cleanFor_suffix M rest (hMeq ▸ hc)
          have hlt := matchRest_length hmt
          simp only [List.length_cons] at ht hlt
          rw [countMatches_shape_append hm, ih rest (by omega) hcr,
            countMatches_cons_match hmt]
        | none =>
          have hcg : c ≠ g1 k := by
            intro hcg
            obtain ⟨r, hr⟩ := cleanFor_head hc hcg
            rw [hr] at hmt
            exact absurd hmt (by simp)
          rw [replaceAll_cons_nomatch hmt,
            countMatches_cons_nomatch (matchRest_eq_none_of_head_ne hcg),
            countMatches_cons_nomatch hmt]
          simp only [List.length_cons] at ht
          exact ih cs (by omega) (cleanFor_tail hc)
  exact fun t => H t.length t (Nat.le_refl _)

theorem cleanFor_replaceAll_marker {k : TimestampType} {m : List Char}
    (hm : MarkerShape k m) :
    ∀ t, cleanFor k t = true → cleanFor k (replaceAll k m t) = true := by
  have H : ∀ n t, t.length ≤ n → cleanFor k t = true →
      cleanFor k (replaceAll k m t) = true := by
    intro n
    induction n with
    | zero =>
      intro t ht _
      cases t with
      | nil => rfl
      | cons c cs => simp at ht
    | succ n ih =>
      intro t ht hc
      cases t with
      | nil => rfl
      | cons c cs =>
        cases hmt : matchRest k (c :: cs) with
        | some rest =>
          rw [replaceAll_cons_match hmt]
          obtain ⟨M, hMeq, hMs⟩ := matchRest_split hmt
          have hcr : cleanFor k rest = true := cleanFor_suffix M rest (hMeq ▸ hc)
          have hlt := matchRest_length hmt
          simp only [List.length_cons] at ht hlt
          exact cleanFor_shape_append hm (ih rest (by omega) hcr)
        | none =>
          have hcg : c ≠ g1 k := by
            intro hcg
            obtain ⟨r, hr⟩ := cleanFor_head hc hcg
            rw [hr] at hmt
            exact absurd hmt (by simp)
          rw [replaceAll_cons_nomatch hmt, cleanFor_cons_ne hcg]
          simp only [List.length_cons] at ht
          exact ih cs (by omega) (cleanFor_tail hc)
  exact fun t => H t.length t (Nat.le_refl _)

theorem mem_dropWhile {p : Char → Bool} {x : Char} :
    ∀ l : List Char, x ∈ l.dropWhile p → x ∈ l := by
  intro l
  induction l with
  | nil => intro h; simp [List.dropWhile] at h
  | cons c cs ih =>
    intro h
    simp only [List.dropWhile] at h
    by_cases hc : p c
    · simp only [hc] at h
      exact List.mem_cons_of_mem _ (ih h)
    · rw [Bool.not_eq_true] at hc
      simp only [hc] at h
      exact h

theorem mem_trimStart {l : List Char} {x : Char} (h : x ∈ trimStart l) : x ∈ l :=
  mem_dropWhile l h

theorem mem_trimEnd {l : List Char} {x : Char} (h : x ∈ trimEnd l) : x ∈ l := by
  unfold trimEnd at h
  rw [List.mem_reverse] at h
  exact List.mem_reverse.mp (mem_dropWhile _ h)

theorem mem_trimBoth {l : List Char} {x : Char} (h : x ∈ trimBoth l) : x ∈ l :=
  mem_trimEnd (mem_trimStart h)

theorem mem_collapseWS : ∀ {l x}, x ∈ collapseWS l → x ∈ l ∨ x = ' ' := by
  have H : ∀ n l, List.length l ≤ n → ∀ x, x ∈ collapseWS l → x ∈ l ∨ x = ' ' := by
    intro n
    induction n with
    | zero =>
      intro l hl x hx
      cases l with
      | nil => rw [collapseWS_nil] at hx; simp at hx
      | cons c cs => simp at hl
    | succ n ih =>
      intro l hl x hx
      match l with
      | [] => rw [collapseWS_nil] at hx; simp at hx
      | [c] => rw [collapseWS_single] at hx; exact Or.inl hx
      | c1 :: c2 :: cs =>
        rw [collapseWS_cons₂] at hx
        simp only [List.length_cons] at hl
        split at hx
        · rcases List.mem_cons.mp hx with hx | hx
          · exact Or.inr hx
          · have hdw := length_dropWhile_le isWS (c2 :: cs)
            simp only [List.length_cons] at hdw
            rcases ih ((c2 :: cs).dropWhile isWS) (by omega) x hx with hx | hx
            · exact Or.inl (List.mem_cons_of_mem _ (mem_dropWhile _ hx))
            · exact Or.inr hx
        · rcases List.mem_cons.mp hx with hx | hx
          · exact Or.inl (hx ▸ List.mem_cons_self _ _)
          · rcases ih (c2 :: cs) (by simp; omega) x hx with hx | hx
            · exact Or.inl (List.mem_cons_of_mem _ hx)
            · exact Or.inr hx
  exact fun {l x} hx => H l.length l (Nat.le_refl _) x hx

theorem g1_not_mem_replaceAll_empty {k : TimestampType} :
    ∀ t, cleanFor k t = true → g1 k ∉ replaceAll k [] t := by
  have H : ∀ n t, t.length ≤ n → cleanFor k t = true → g1 k ∉ replaceAll k [] t := by
    intro n
    induction n with
    | zero =>
      intro t ht _
      cases t with
      | nil => rw [replaceAll_nil]; simp
      | cons c cs => simp at ht
    | succ n ih =>
      intro t ht hc
      cases t with
      | nil => rw [replaceAll_nil]; simp
      | cons c cs =>
        cases hmt : matchRest k (c :: cs) with
        | some rest =>
          rw [replaceAll_cons_match hmt, List.nil_append]
          obtain ⟨M, hMeq, _⟩ := matchRest_split hmt
          have hcr : cleanFor k rest = true := cleanFor_suffix M rest (hMeq ▸ hc)
          have hlt := matchRest_length hmt
          simp only [List.length_cons] at ht hlt
          exact ih rest (by omega) hcr
        | none =>
          have hcg : c ≠ g1 k := by
            intro hcg
            obtain ⟨r, hr⟩ := cleanFor_head hc hcg
            rw [hr] at hmt
            exact absurd hmt (by simp)
          rw [replaceAll_cons_nomatch hmt]
          simp only [List.length_cons] at ht
          intro hmem
          rcases List.mem_cons.mp hmem with hmem | hmem
          · exact hcg hmem.symm
          · exact ih cs (by omega) (cleanFor_tail hc) hmem
  exact fun t => H t.length t (Nat.le_refl _)

/-- After `removeTimestamp` on a clean title, the kind's leading glyph
character is gone entirely. -/
theorem g1_not_mem_removeTimestamp {k : TimestampType} {t : List Char}
    (hc : cleanFor k t = true) : g1 k ∉ removeTimestamp t k := by
  intro hmem
  unfold removeTimestamp at hmem
  rcases mem_collapseWS (mem_trimBoth hmem) with hmem | hmem
  · exact g1_not_mem_replaceAll_empty t hc hmem
  · exact g1_ne_space k hmem

/-! ## Claim C4: round-trip removal, amended to clean titles -/

/-- C4 (amended).  For every title `t` and kind `k` such that every
occurrence of `k`'s leading glyph character in `t` begins a full match of
`k`'s pattern, `hasTimestamp(removeTimestamp(t, k), k)` is false — the
removal deletes every occurrence and nothing re-matches.  (The unamended
claim fails on titles with stray glyph characters; see the
counterexample.) -/
theorem c4_remove_clean_amended (t : List Char) (k : TimestampType)
    (hc : cleanFor k t = true) :
    hasTimestamp (removeTimestamp t k) k = false :=
  hasMatch_eq_false_of_not_mem (g1_not_mem_removeTimestamp hc)

/-- Witness for the amended C4 on a clean title carrying one Pause marker. -/
theorem c4_remove_clean_amended_witness :
    hasTimestamp (removeTimestamp "Task ⏸️ 2024-01-01 10:11".toList .pause) .pause
      = false :=
  c4_remove_clean_amended "Task ⏸️ 2024-01-01 10:11".toList .pause (by decide)

theorem countMatches_free_marker_free {k : TimestampType} {m A B : List Char}
    (hm : MarkerShape k m) (hA : g1 k ∉ A) (hB : g1 k ∉ B) :
    countMatches k (A ++ m ++ B) = 1 := by
  rw [List.append_assoc, countMatches_append_free hA, countMatches_shape_append hm,
    countMatches_eq_zero_of_not_mem hB]

theorem cleanFor_free_marker_free {k : TimestampType} {m A B : List Char}
    (hm : MarkerShape k m) (hA : g1 k ∉ A) (hB : g1 k ∉ B) :
    cleanFor k (A ++ m ++ B) = true := by
  rw [List.append_assoc, cleanFor_append_free hA]
  exact cleanFor_shape_append hm (cleanFor_of_not_mem hB)

theorem insertMechanics_decomp (t m : List Char) (ip : Nat) :
    ∃ A B,
      (if ip = t.length then trimEnd t ++ ' ' :: m
       else trimEnd (t.take ip) ++ ' ' :: m ++
         (if (t.drop ip).head? = some ' ' then [] else [' ']) ++ trimStart (t.drop ip))
        = A ++ m ++ B ∧
      (∀ x ∈ A, x ∈ t ∨ x = ' ') ∧ (∀ x ∈ B, x ∈ t ∨ x = ' ') := by
  by_cases hip : ip = t.length
  · rw [if_pos hip]
    refine ⟨trimEnd t ++ [' '], [], by simp, ?_, by simp⟩
    intro x hx
    rcases List.mem_append.mp hx with hx | hx
    · exact Or.inl (mem_trimEnd hx)
    · simp at hx; exact Or.inr hx
  · rw [if_neg hip]
    refine ⟨trimEnd (t.take ip) ++ [' '],
      (if (t.drop ip).head? = some ' ' then [] else [' ']) ++ trimStart (t.drop ip),
      by simp, ?_, ?_⟩
    · intro x hx
      rcases List.mem_append.mp hx with hx | hx
      · exact Or.inl (List.take_subset _ _ (mem_trimEnd hx))
      · simp at hx; exact Or.inr hx
    · intro x hx
      rcases List.mem_append.mp hx with hx | hx
      · split at hx
        · simp at hx
        · simp at hx; exact Or.inr hx
      · exact Or.inl (List.drop_subset _ _ (mem_trimStart hx))

/-- The insertion helper always produces `A ++ marker ++ B` where `A` and
`B` only contain characters of the title plus inserted single spaces. -/
theorem appendTimestampInOrder_decomp (t : List Char) (k : TimestampType)
    (m : List Char) :
    ∃ A B, appendTimestampInOrder t k m = A ++ m ++ B ∧
      (∀ x ∈ A, x ∈ t ∨ x = ' ') ∧ (∀ x ∈ B, x ∈ t ∨ x = ' ') := by
  unfold appendTimestampInOrder
  simp only []
  exact insertMechanics_decomp t m _

/-- Upserting with a valid stamp into a clean title carrying at most one
match leaves exactly one match, and the result is clean again. -/
theorem upsert_count_one {k : TimestampType} {t s : List Char}
    (hs : validStamp k s = true) (hc : cleanFor k t = true)
    (hcount : countMatches k t ≤ 1) :
    countMatches k (upsertTimestamp t k s) = 1 ∧
      cleanFor k (upsertTimestamp t k s) = true := by
  have hm := markerShape_of_validStamp hs
  unfold upsertTimestamp
  simp only []
  by_cases hhas : hasMatch k t
  · rw [if_pos hhas]
    have h1 := one_le_countMatches_of_hasMatch t hhas
    have heq : countMatches k t = 1 := by omega
    exact ⟨by rw [count_replaceAll_marker hm t hc, heq],
      cleanFor_replaceAll_marker hm t hc⟩
  · rw [if_neg hhas]
    have hng : g1 k ∉ t :=
      g1_not_mem_of_cleanFor_of_not_hasMatch hc (Bool.not_eq_true _ ▸ hhas)
    obtain ⟨A, B, hdec, hAm, hBm⟩ :=
      appendTimestampInOrder_decomp t k (glyph k ++ ' ' :: s)
    have hA : g1 k ∉ A := by
      intro hx
      rcases hAm _ hx with hx | hx
      · exact hng hx
      · exact g1_ne_space k hx
    have hB : g1 k ∉ B := by
      intro hx
      rcases hBm _ hx with hx | hx
      · exact hng hx
      · exact g1_ne_space k hx
    rw [hdec]
    exact ⟨countMatches_free_marker_free hm hA hB,
      cleanFor_free_marker_free hm hA hB⟩

/-! ## Claim C5: upsert idempotence, amended to clean titles -/

/-- C5 (amended).  For every kind `k`, valid clock stamps, and title `t`
that is clean for `k` and carries at most one `k`-match, the double upsert
`upsertTimestamp(upsertTimestamp(t, k), k)` yields exactly one occurrence
of `k`'s pattern.  (Unamended the claim fails: the global replace refreshes
every occurrence instead of collapsing duplicates — see the
counterexample.) -/
theorem c5_upsert_idempotent_amended (k : TimestampType) (t s1 s2 : List Char)
    (hs1 : validStamp k s1 = true) (hs2 : validStamp k s2 = true)
    (hc : cleanFor k t = true) (hcount : countMatches k t ≤ 1) :
    countMatches k (upsertTimestamp (upsertTimestamp t k s1) k s2) = 1 := by
  obtain ⟨h1, h1c⟩ := upsert_count_one hs1 hc hcount
  exact (upsert_count_one hs2 h1c (by omega)).1

/-- Witness for the amended C5 on the plain title `"Task"`. -/
theorem c5_upsert_idempotent_amended_witness :
    countMatches .start (upsertTimestamp
      (upsertTimestamp "Task".toList .start (tsFix .start)) .start (tsFix .start)) = 1 :=
  c5_upsert_idempotent_amended .start "Task".toList (tsFix .start) (tsFix .start)
    (by decide) (by decide) (by decide) (by decide)

/-! ## Whitespace-normalized titles -/

/-- No two adjacent whitespace characters. -/
def noDoubleWS : List Char → Bool
  | [] => true
  | [_] => true
  | c1 :: c2 :: cs => !(isWS c1 && isWS c2) && noDoubleWS (c2 :: cs)

/-- A whitespace-normalized title: no run of two or more whitespace
characters and no leading or trailing whitespace — exactly the titles the
whitespace-cleanup of `removeTimestamp` leaves unchanged. -/
def normalizedB (l : List Char) : Bool :=
  noDoubleWS l && l.head?.all (fun c => !isWS c) && l.getLast?.all (fun c => !isWS c)

theorem noDoubleWS_tail {c : Char} {cs : List Char}
    (h : noDoubleWS (c :: cs) = true) : noDoubleWS cs = true := by
  cases cs with
  | nil => rfl
  | cons c2 cs' =>
    simp only [noDoubleWS, Bool.and_eq_true] at h
    exact h.2

theorem noDoubleWS_suffix : ∀ (a l : List Char),
    noDoubleWS (a ++ l) = true → noDoubleWS l = true := by
  intro a
  induction a with
  | nil => intro l h; exact h
  | cons c cs ih => intro l h; exact ih l (noDoubleWS_tail h)

theorem noDoubleWS_append_left : ∀ {l1 l2 : List Char},
    noDoubleWS (l1 ++ l2) = true → noDoubleWS l1 = true := by
  intro l1
  induction l1 with
  | nil => intro l2 _; rfl
  | cons c cs ih =>
    intro l2 h
    cases cs with
    | nil => rfl
    | cons c2 cs' =>
      simp only [List.cons_append, noDoubleWS, Bool.and_eq_true] at h ⊢
      exact ⟨h.1, @ih l2 h.2⟩

theorem collapseWS_eq_self_of_noDoubleWS :
    ∀ l, noDoubleWS l = true → collapseWS l = l := by
  have H : ∀ n l, List.length l ≤ n → noDoubleWS l = true → collapseWS l = l := by
    intro n
    induction n with
    | zero =>
      intro l hl _
      cases l with
      | nil => rfl
      | cons c cs => simp at hl
    | succ n ih =>
      intro l hl hnd
      match l with
      | [] => rfl
      | [c] => rfl
      | c1 :: c2 :: cs =>
        rw [collapseWS_cons₂]
        simp only [noDoubleWS, Bool.and_eq_true] at hnd
        have hcond : (isWS c1 && isWS c2) = false := by
          rcases Bool.eq_false_or_eq_true (isWS c1 && isWS c2) with hb | hb
          all_goals first
            | exact hb
            | (rw [hb] at hnd; simp at hnd)
        rw [if_neg (by rw [hcond]; simp)]
        simp only [List.length_cons] at hl
        rw [ih (c2 :: cs) (by simp; omega) hnd.2]
  exact fun l => H l.length l (Nat.le_refl _)

theorem trimStart_eq_self_of_head {l : List Char}
    (h : l.head?.all (fun c => !isWS c) = true) : trimStart l = l := by
  cases l with
  | nil => rfl
  | cons c cs =>
    simp only [List.head?_cons, Option.all_some, Bool.not_eq_true'] at h
    unfold trimStart
    simp only [List.dropWhile]
    rw [h]

theorem trimEnd_eq_self_of_getLast {l : List Char}
    (h : l.getLast?.all (fun c => !isWS c) = true) : trimEnd l = l := by
  unfold trimEnd
  have hrev : l.reverse.head?.all (fun c => !isWS c) = true := by
    rw [List.head?_reverse]
    exact h
  cases hr : l.reverse with
  | nil =>
    have : l = [] := by
      have := congrArg List.reverse hr
      simpa using this
    rw [this]
    rfl
  | cons c cs =>
    rw [hr] at hrev
    simp only [List.head?_cons, Option.all_some, Bool.not_eq_true'] at hrev
    simp only [List.dropWhile]
    rw [hrev]
    simp only [Bool.false_eq_true, if_false]
    rw [← hr]
    simp

theorem trimBoth_eq_self_of_normalized {l : List Char}
    (h : normalizedB l = true) : trimBoth l = l := by
  unfold normalizedB at h
  simp only [Bool.and_eq_true] at h
  unfold trimBoth
  rw [trimEnd_eq_self_of_getLast h.2, trimStart_eq_self_of_head h.1.2]

/-- On a normalized title free of the kind's glyph, `removeTimestamp` is the
identity. -/
theorem removeTimestamp_eq_self {k : TimestampType} {t : List Char}
    (hn : normalizedB t = true) (hng : g1 k ∉ t) : removeTimestamp t k = t := by
  unfold removeTimestamp
  rw [replaceAll_eq_self_of_not_mem hng,
    collapseWS_eq_self_of_noDoubleWS t (by
      unfold normalizedB at hn
      simp only [Bool.and_eq_true] at hn
      exact hn.1.1),
    trimBoth_eq_self_of_normalized hn]

theorem collapseWS_head (c : Char) (cs : List Char) :
    (collapseWS (c :: cs)).head? = some c ∨
      ((collapseWS (c :: cs)).head? = some ' ' ∧ isWS c = true) := by
  cases cs with
  | nil => exact Or.inl (by rw [collapseWS_single]; rfl)
  | cons c2 cs' =>
    rw [collapseWS_cons₂]
    by_cases hb : (isWS c && isWS c2) = true
    · rw [if_pos hb]
      simp only [Bool.and_eq_true] at hb
      exact Or.inr ⟨rfl, hb.1⟩
    · rw [if_neg hb]
      exact Or.inl rfl

theorem collapseWS_ne_nil (c : Char) (cs : List Char) :
    collapseWS (c :: cs) ≠ [] := by
  rcases collapseWS_head c cs with h | ⟨h, _⟩ <;>
    exact fun hnil => by rw [hnil] at h; simp at h

theorem noDoubleWS_cons_of {c : Char} {l : List Char}
    (h1 : noDoubleWS l = true)
    (h2 : isWS c = false ∨ l.head?.all (fun d => !isWS d) = true) :
    noDoubleWS (c :: l) = true := by
  cases l with
  | nil => rfl
  | cons d ds =>
    simp only [noDoubleWS, Bool.and_eq_true]
    refine ⟨?_, h1⟩
    rcases h2 with h2 | h2
    · rw [h2]; simp
    · simp only [List.head?_cons, Option.all_some, Bool.not_eq_true'] at h2
      rw [h2]; simp

theorem collapseWS_head_all {l : List Char}
    (h : l.head?.all (fun c => !isWS c) = true) :
    (collapseWS l).head?.all (fun c => !isWS c) = true := by
  cases l with
  | nil => rfl
  | cons c cs =>
    simp only [List.head?_cons, Option.all_some, Bool.not_eq_true'] at h
    cases cs with
    | nil => rw [collapseWS_single]; simp [h]
    | cons c2 cs' =>
      rw [collapseWS_cons₂, if_neg (by rw [h]; simp)]
      simp [h]

/-- The collapse scan never leaves two adjacent whitespace characters. -/
theorem noDoubleWS_collapseWS : ∀ l, noDoubleWS (collapseWS l) = true := by
  have H : ∀ n l, List.length l ≤ n → noDoubleWS (collapseWS l) = true := by
    intro n
    induction n with
    | zero =>
      intro l hl
      cases l with
      | nil => rfl
      | cons c cs => simp at hl
    | succ n ih =>
      intro l hl
      match l with
      | [] => rfl
      | [c] => rfl
      | c1 :: c2 :: cs =>
        rw [collapseWS_cons₂]
        simp only [List.length_cons] at hl
        by_cases hb : (isWS c1 && isWS c2) = true
        · rw [if_pos hb]
          have hdw := length_dropWhile_le isWS (c2 :: cs)
          simp only [List.length_cons] at hdw
          refine noDoubleWS_cons_of (ih _ (by omega)) (Or.inr ?_)
          cases hW : (c2 :: cs).dropWhile isWS with
          | nil => rfl
          | cons d ds =>
            have hd : isWS d = false := dropWhile_head_not _ hW
            exact collapseWS_head_all (by simp [hd])
        · rw [if_neg hb]
          refine noDoubleWS_cons_of (ih _ (by simp; omega)) ?_
          rcases Bool.eq_false_or_eq_true (isWS c1) with hc1 | hc1
          · have hc2 : isWS c2 = false := by
              rcases Bool.eq_false_or_eq_true (isWS c2) with h2 | h2
              · rw [hc1, h2] at hb; simp at hb
              · exact h2
            exact Or.inr (collapseWS_head_all (by simp [hc2]))
          · exact Or.inl hc1
  exact fun l => H l.length l (Nat.le_refl _)

theorem head_all_trimStart (l : List Char) :
    (trimStart l).head?.all (fun c => !isWS c) = true := by
  unfold trimStart
  cases hd : l.dropWhile isWS with
  | nil => rfl
  | cons c cs =>
    have := dropWhile_head_not _ hd
    simp [this]

theorem getLast_all_trimEnd (l : List Char) :
    (trimEnd l).getLast?.all (fun c => !isWS c) = true := by
  unfold trimEnd
  rw [List.getLast?_reverse]
  cases hd : l.reverse.dropWhile isWS with
  | nil => rfl
  | cons c cs =>
    have := dropWhile_head_not _ hd
    simp [this]

theorem trimStart_suffix (l : List Char) : ∃ w, l = w ++ trimStart l :=
  ⟨l.takeWhile isWS, (List.takeWhile_append_dropWhile isWS l).symm⟩

theorem trimEnd_decomp (l : List Char) : ∃ w, l = trimEnd l ++ w := by
  obtain ⟨w, hw⟩ := trimStart_suffix l.reverse
  refine ⟨w.reverse, ?_⟩
  have h2 : l = (trimStart l.reverse).reverse ++ w.reverse := by
    have := congrArg List.reverse hw
    simpa using this
  exact h2

theorem getLast_all_trimStart {l : List Char}
    (h : l.getLast?.all (fun c => !isWS c) = true) :
    (trimStart l).getLast?.all (fun c => !isWS c) = true := by
  obtain ⟨w, hw⟩ := trimStart_suffix l
  cases ht : trimStart l with
  | nil => rfl
  | cons c cs =>
    rw [← ht]
    have : (trimStart l).getLast? = l.getLast? := by
      conv_rhs => rw [hw]
      rw [getLast?_append_of_ne_nil (by rw [ht]; simp)]
    rw [this]
    exact h

/-- The whitespace cleanup of `removeTimestamp` always yields a normalized
title. -/
theorem normalizedB_trimBoth_collapseWS (u : List Char) :
    normalizedB (trimBoth (collapseWS u)) = true := by
  unfold normalizedB trimBoth
  have h0 := noDoubleWS_collapseWS u
  obtain ⟨w1, hw1⟩ := trimEnd_decomp (collapseWS u)
  have h1 : noDoubleWS (trimEnd (collapseWS u)) = true :=
    noDoubleWS_append_left (hw1 ▸ h0)
  obtain ⟨w2, hw2⟩ := trimStart_suffix (trimEnd (collapseWS u))
  have h2 : noDoubleWS (trimStart (trimEnd (collapseWS u))) = true :=
    noDoubleWS_suffix w2 _ (hw2 ▸ h1)
  rw [h2, head_all_trimStart, getLast_all_trimStart (getLast_all_trimEnd _)]
  rfl

theorem normalizedB_removeTimestamp (t : List Char) (k : TimestampType) :
    normalizedB (removeTimestamp t k) = true :=
  normalizedB_trimBoth_collapseWS _

theorem mem_removeTimestamp {t : List Char} {k : TimestampType} {x : Char}
    (h : x ∈ removeTimestamp t k) : x ∈ t ∨ x = ' ' := by
  unfold removeTimestamp at h
  rcases mem_collapseWS (mem_trimBoth h) with h | h
  · rcases mem_replaceAll _ _ h with h | h
    · exact Or.inl h
    · simp at h
  · exact Or.inr h

/-! ## Claim C9: 3-state vs 4-state refinement -/

theorem upsertTimestamp3_end_eq (t s : List Char) :
    upsertTimestamp3 t .end_ s = upsertTimestamp t .end_ s := by
  unfold upsertTimestamp3 upsertTimestamp TimestampType3.toKind
  simp only []
  by_cases h : hasMatch .end_ t
  · rw [if_pos h, if_pos h]
  · rw [if_neg h, if_neg h]
    unfold appendTimestampInOrder3 appendTimestampInOrder
    rfl

theorem upsertTimestamp3_start_eq (t s : List Char) (hp : g1 .pause ∉ t) :
    upsertTimestamp3 t .start s = upsertTimestamp t .start s := by
  unfold upsertTimestamp3 upsertTimestamp TimestampType3.toKind
  simp only []
  by_cases h : hasMatch .start t
  · rw [if_pos h, if_pos h]
  · rw [if_neg h, if_neg h]
    unfold appendTimestampInOrder3 appendTimestampInOrder
    unfold findTimestampPositions3 findTimestampPositions
    simp only []
    rw [firstMatchPos_eq_none_of_not_mem hp]

theorem removeTimestamp_pause_id {t : List Char} (hn : normalizedB t = true)
    (hp : g1 .pause ∉ t) : removeTimestamp t .pause = t :=
  removeTimestamp_eq_self hn hp

theorem g1_pause_not_mem_removeTimestamp {t : List Char} (hp : g1 .pause ∉ t)
    (k : TimestampType) : g1 .pause ∉ removeTimestamp t k := by
  intro hmem
  rcases mem_removeTimestamp hmem with h | h
  · exact hp h
  · exact g1_ne_space .pause h

/-- C9 (amended).  On every whitespace-normalized title containing no Pause
glyph character, and for every (destination, source) pair of the 3-state
space other than (InProgress, Done), the final 4-state
`applyStateTransitionTimestamps` returns the same title as the preceding
3-state version under the same clock.  (Unamended the claim is false: the
4-state version normalizes whitespace on the way to Done — see the
counterexample — and for (InProgress, Done) it reorders the Start upsert
after the End/Completion removals.) -/
theorem c9_refinement_amended (ts : TimestampType → List Char) (t : List Char)
    (d s : KanbanState3) (hn : normalizedB t = true) (hp : g1 .pause ∉ t)
    (hex : ¬(d = KanbanState3.inprogress ∧ s = KanbanState3.done)) :
    applyStateTransitionTimestamps ts t d.embed s.embed =
      applyStateTransitionTimestamps3 (fun k3 => ts k3.toKind) t d s := by
  have hrmp : removeTimestamp (removeTimestamp t .start) .pause =
      removeTimestamp t .start :=
    removeTimestamp_eq_self (normalizedB_removeTimestamp t .start)
      (g1_pause_not_mem_removeTimestamp hp .start)
  cases d <;> cases s
  · rfl
  · show removeTimestamp (removeTimestamp (removeTimestamp
        (removeTimestamp t .start) .pause) .end_) .completion =
      removeTimestamp3 (removeTimestamp3 (removeTimestamp3 t .start) .end_) .completion
    rw [hrmp]
    rfl
  · show removeTimestamp (removeTimestamp (removeTimestamp
        (removeTimestamp t .start) .pause) .end_) .completion =
      removeTimestamp3 (removeTimestamp3 (removeTimestamp3 t .start) .end_) .completion
    rw [hrmp]
    rfl
  · show upsertTimestamp t .start (ts .start) = upsertTimestamp3 t .start (ts .start)
    exact (upsertTimestamp3_start_eq t (ts .start) hp).symm
  · rfl
  · exact absurd ⟨rfl, rfl⟩ hex
  · show upsertTimestamp (removeTimestamp t .pause) .end_ (ts .end_) =
      upsertTimestamp3 t .end_ (ts .end_)
    rw [removeTimestamp_pause_id hn hp]
    exact (upsertTimestamp3_end_eq t (ts .end_)).symm
  · show upsertTimestamp (removeTimestamp t .pause) .end_ (ts .end_) =
      upsertTimestamp3 t .end_ (ts .end_)
    rw [removeTimestamp_pause_id hn hp]
    exact (upsertTimestamp3_end_eq t (ts .end_)).symm
  · rfl

/-- Witness for the amended C9: on the normalized, pause-free title
`"Task"` the two versions agree on the Done ← Todo transition. -/
theorem c9_refinement_amended_witness :
    applyStateTransitionTimestamps tsFix "Task".toList
      KanbanState3.done.embed KanbanState3.todo.embed =
      applyStateTransitionTimestamps3 tsFix3 "Task".toList .done .todo :=
  c9_refinement_amended tsFix "Task".toList .done .todo (by decide) (by decide)
    (by simp)

/-! ## Claim C2: the Done transition -/

theorem g1_not_mem_upsert_other {j k : TimestampType} {t s : List Char}
    (hjk : j ≠ k) (hv : validStamp k s = true) (hjt : g1 j ∉ t) :
    g1 j ∉ upsertTimestamp t k s := by
  have hm := markerShape_of_validStamp hv
  intro hmem
  unfold upsertTimestamp at hmem
  simp only [] at hmem
  by_cases hh : hasMatch k t
  · rw [if_pos hh] at hmem
    rcases mem_replaceAll _ _ hmem with h | h
    · exact hjt h
    · exact g1_not_mem_shape hjk hm h
  · rw [if_neg hh] at hmem
    obtain ⟨A, B, hdec, hAm, hBm⟩ :=
      appendTimestampInOrder_decomp t k (glyph k ++ ' ' :: s)
    rw [hdec] at hmem
    rcases List.mem_append.mp hmem with h | h
    · rcases List.mem_append.mp h with h | h
      · rcases hAm _ h with h | h
        · exact hjt h
        · exact g1_ne_space j h
      · exact g1_not_mem_shape hjk hm h
    · rcases hBm _ h with h | h
      · exact hjt h
      · exact g1_ne_space j h

/-- C2 (amended).  A transition to Done from any source other than Done
performs remove Pause then upsert End.  On a whitespace-normalized title
with no Pause glyph character, clean for End and carrying at most one End
match, the result has no Pause-pattern match and exactly one End-pattern
match; and the disabled Completion upsert writes nothing: a title without
the Completion glyph stays without a Completion match.  (Unamended, the
"exactly one End match" part fails on titles that already carry two End
markers — see the counterexample.) -/
theorem c2_done_transition_amended (ts : TimestampType → List Char)
    (t : List Char) (s : KanbanState) (hsne : s ≠ KanbanState.done)
    (hn : normalizedB t = true) (hp : g1 .pause ∉ t)
    (hce : cleanFor .end_ t = true) (hcount : countMatches .end_ t ≤ 1)
    (hv : validStamp .end_ (ts .end_) = true) :
    applyStateTransitionTimestamps ts t .done s =
      upsertTimestamp (removeTimestamp t .pause) .end_ (ts .end_) ∧
    hasTimestamp (applyStateTransitionTimestamps ts t .done s) .pause = false ∧
    countMatches .end_ (applyStateTransitionTimestamps ts t .done s) = 1 ∧
    (g1 .completion ∉ t →
      hasTimestamp (applyStateTransitionTimestamps ts t .done s) .completion
        = false) := by
  have hred : applyStateTransitionTimestamps ts t .done s =
      upsertTimestamp (removeTimestamp t .pause) .end_ (ts .end_) := by
    cases s with
    | todo => rfl
    | inprogress => rfl
    | done => exact absurd rfl hsne
    | onhold => rfl
  have hid : removeTimestamp t .pause = t := removeTimestamp_eq_self hn hp
  refine ⟨hred, ?_, ?_, ?_⟩
  · rw [hred, hid]
    exact hasMatch_eq_false_of_not_mem
      (g1_not_mem_upsert_other (by simp) hv hp)
  · rw [hred, hid]
    exact (upsert_count_one hv hce hcount).1
  · intro hcomp
    rw [hred, hid]
    exact hasMatch_eq_false_of_not_mem
      (g1_not_mem_upsert_other (by simp) hv hcomp)

/-- Witness for the amended C2 on the title `"Task"` moved to Done from
Todo. -/
theorem c2_done_transition_amended_witness :
    hasTimestamp (applyStateTransitionTimestamps tsFix "Task".toList .done .todo)
        .pause = false ∧
    countMatches .end_
      (applyStateTransitionTimestamps tsFix "Task".toList .done .todo) = 1 := by
  have h := c2_done_transition_amended tsFix "Task".toList .todo (by simp)
    (by decide) (by decide) (by decide) (by decide) (by decide)
  exact ⟨h.2.1, h.2.2.1⟩

/-! ## Cross-kind preservation of cleanliness through removal -/

theorem shape_length {k : TimestampType} {M : List Char} (h : MarkerShape k M) :
    5 ≤ M.length := by
  obtain ⟨w1, D4, D2a, D2b, tl, hM, _, h4, h2a, h2b, _⟩ := h
  have hg : 1 ≤ (glyph k).length := by cases k <;> simp [glyph]
  rw [hM]
  simp only [List.length_append, List.length_cons]
  omega

theorem take_append_le {A w : List Char} : ∀ {n : Nat}, n ≤ A.length →
    (A ++ w).take n = A.take n := by
  induction A with
  | nil => intro n h; simp at h; simp [h]
  | cons a A' ih =>
    intro n h
    cases n with
    | zero => simp
    | succ m =>
      simp only [List.length_cons] at h
      simp only [List.cons_append, List.take_succ_cons]
      rw [ih (by omega)]

theorem drop_append_le {A w : List Char} : ∀ {n : Nat}, n ≤ A.length →
    (A ++ w).drop n = A.drop n ++ w := by
  induction A with
  | nil => intro n h; simp at h; simp [h]
  | cons a A' ih =>
    intro n h
    cases n with
    | zero => simp
    | succ m =>
      simp only [List.length_cons] at h
      simp only [List.cons_append, List.drop_succ_cons]
      exact ih (by omega)

/-- Trailing whitespace can be stripped from a clean title: every match ends
on a digit, so no match reaches into the trailing run. -/
theorem cleanFor_append_allWS {j : TimestampType} :
    ∀ P w, (∀ c ∈ w, isWS c = true) → cleanFor j (P ++ w) = true →
      cleanFor j P = true := by
  intro P
  induction P with
  | nil => intro w _ _; rfl
  | cons c P' ih =>
    intro w hw h
    rw [List.cons_append] at h
    obtain ⟨hhead, htail⟩ := cleanFor_cons_iff.mp h
    rw [cleanFor_cons_iff]
    refine ⟨?_, ih w hw htail⟩
    intro hc
    have hsome := hhead hc
    cases hm : matchRest j (c :: (P' ++ w)) with
    | none => rw [hm] at hsome; simp at hsome
    | some r =>
      obtain ⟨M, hMeq, hMs⟩ := matchRest_split hm
      rw [← List.cons_append] at hMeq
      by_cases hle : M.length ≤ (c :: P').length
      · have hMtake : M = (c :: P').take M.length := by
          have h1 : ((c :: P') ++ w).take M.length = M := by
            rw [hMeq]
            exact List.take_left M r
          rw [take_append_le hle] at h1
          exact h1.symm
        have hsplit : c :: P' = M ++ (c :: P').drop M.length := by
          conv_lhs => rw [← List.take_append_drop M.length (c :: P')]
          rw [← hMtake]
        rw [hsplit, matchRest_of_shape hMs]
        rfl
      · exfalso
        push_neg at hle
        have hle' : (c :: P').length ≤ M.length := Nat.le_of_lt hle
        have hdrop : ((c :: P') ++ w).drop (c :: P').length = w :=
          List.drop_left _ _
        have hdrop2 : (M ++ r).drop (c :: P').length =
            M.drop (c :: P').length ++ r := drop_append_le hle'
        rw [hMeq, hdrop2] at hdrop
        have hne : M.drop (c :: P').length ≠ [] := by
          intro hnil
          have hlen := congrArg List.length hnil
          rw [List.length_drop] at hlen
          simp only [List.length_nil] at hlen
          omega
        obtain ⟨d, hd, hdig⟩ := shape_last_digit hMs
        have hdM : (M.drop (c :: P').length).getLast? = some d := by
          rw [← hd]
          conv_rhs => rw [← List.take_append_drop (c :: P').length M]
          rw [getLast?_append_of_ne_nil hne]
        have hdmem : d ∈ M.drop (c :: P').length := by
          rcases List.getLast?_eq_some_iff.mp hdM with ⟨ys, hys⟩
          rw [hys]
          simp
        have hdw : d ∈ w := by
          rw [← hdrop]
          exact List.mem_append.mpr (Or.inl hdmem)
        have := hw d hdw
        rw [isWS_eq_false_of_isDigit hdig] at this
        exact absurd this (by simp)

theorem trimEnd_decomp_ws (l : List Char) :
    ∃ w, l = trimEnd l ++ w ∧ ∀ c ∈ w, isWS c = true := by
  obtain ⟨w, hw⟩ := dropWhile_split isWS l.reverse
  refine ⟨w.reverse, ?_, fun c hc => hw.2 c (List.mem_reverse.mp hc)⟩
  have h2 : l = (l.reverse.dropWhile isWS).reverse ++ w.reverse := by
    have := congrArg List.reverse hw.1
    simpa using this
  exact h2

theorem cleanFor_trimEnd {j : TimestampType} {l : List Char}
    (h : cleanFor j l = true) : cleanFor j (trimEnd l) = true := by
  obtain ⟨w, hw, hws⟩ := trimEnd_decomp_ws l
  exact cleanFor_append_allWS _ w hws (hw ▸ h)

theorem cleanFor_trimStart {j : TimestampType} {l : List Char}
    (h : cleanFor j l = true) : cleanFor j (trimStart l) = true := by
  obtain ⟨w, hw⟩ := trimStart_suffix l
  exact cleanFor_suffix w _ (hw ▸ h)

theorem cleanFor_trimBoth {j : TimestampType} {l : List Char}
    (h : cleanFor j l = true) : cleanFor j (trimBoth l) = true :=
  cleanFor_trimStart (cleanFor_trimEnd h)

/-- Every suffix beginning with the kind's leading glyph character starts a
match whose text is also free of double whitespace. -/
def CleanN (j : TimestampType) (v : List Char) : Prop :=
  ∀ cs : List Char, (g1 j :: cs) <:+ v →
    ∃ M r, g1 j :: cs = M ++ r ∧ MarkerShape j M ∧ noDoubleWS M = true

theorem CleanN_suffix {j : TimestampType} {u v : List Char}
    (hs : u <:+ v) (h : CleanN j v) : CleanN j u := by
  intro cs hcs
  obtain ⟨t1, ht1⟩ := hcs
  obtain ⟨t2, ht2⟩ := hs
  exact h cs ⟨t2 ++ t1, by rw [List.append_assoc, ht1, ht2]⟩

theorem CleanN_nil (j : TimestampType) : CleanN j [] := by
  intro cs hcs
  obtain ⟨t1, ht1⟩ := hcs
  exact absurd ht1 (by simp)

theorem CleanN_cons_ne {j : TimestampType} {c : Char} {v : List Char}
    (hc : c ≠ g1 j) (h : CleanN j v) : CleanN j (c :: v) := by
  intro cs hcs
  rcases List.suffix_cons_iff.mp hcs with hcs | hcs
  · exact absurd (List.cons.injEq _ _ _ _ ▸ hcs).1.symm hc
  · exact h cs hcs

theorem collapseWS_append_of : ∀ (A : List Char), noDoubleWS A = true → A ≠ [] →
    (∀ d, A.getLast? = some d → isWS d = false) →
    ∀ X, collapseWS (A ++ X) = A ++ collapseWS X := by
  intro A
  induction A with
  | nil => intro _ h _ _; exact absurd rfl h
  | cons a A' ih =>
    intro hnd hne hlast X
    cases A' with
    | nil =>
      have ha : isWS a = false := hlast a rfl
      cases X with
      | nil => simp [collapseWS_single, collapseWS_nil]
      | cons x xs =>
        have heq : ([a] ++ (x :: xs)) = a :: x :: xs := by simp
        rw [heq, collapseWS_cons₂, if_neg (by rw [ha]; simp)]
        simp
    | cons a2 A'' =>
      have hnd' : noDoubleWS (a2 :: A'') = true := noDoubleWS_tail hnd
      have hpair : ¬(isWS a && isWS a2) = true := by
        intro hcontr
        simp only [noDoubleWS, Bool.and_eq_true] at hnd
        rw [hcontr] at hnd
        simp at hnd
      have hlast' : ∀ d, (a2 :: A'').getLast? = some d → isWS d = false := by
        intro d hd
        apply hlast d
        have h2 : (a :: a2 :: A'').getLast? = (a2 :: A'').getLast? := by
          have h3 := @getLast?_append_of_ne_nil [a] (a2 :: A'') (by simp)
          simp only [List.singleton_append] at h3
          exact h3
        rw [h2]
        exact hd
      have heq : ((a :: a2 :: A'') ++ X) = a :: a2 :: (A'' ++ X) := by simp
      rw [heq, collapseWS_cons₂]
      rw [if_neg (by simpa using hpair)]
      have hih := ih hnd' (by simp) hlast' X
      rw [List.cons_append] at hih
      rw [hih]
      simp

/-- Removing one kind's matches keeps every other kind's cleanliness: match
texts of the other kind survive the scan verbatim. -/
theorem cleanN_replaceAll {j k : TimestampType} (hjk : j ≠ k) :
    ∀ t, noDoubleWS t = true → cleanFor j t = true → cleanFor k t = true →
      CleanN j (replaceAll k [] t) := by
  have H : ∀ n t, List.length t ≤ n → noDoubleWS t = true → cleanFor j t = true →
      cleanFor k t = true → CleanN j (replaceAll k [] t) := by
    intro n
    induction n with
    | zero =>
      intro t ht _ _ _
      cases t with
      | nil => rw [replaceAll_nil]; exact CleanN_nil j
      | cons c cs => simp at ht
    | succ n ih =>
      intro t ht hnd hcj hck
      cases t with
      | nil => rw [replaceAll_nil]; exact CleanN_nil j
      | cons c cs =>
        cases hm : matchRest k (c :: cs) with
        | some rest =>
          rw [replaceAll_cons_match hm, List.nil_append]
          obtain ⟨Mk, hMkeq, _⟩ := matchRest_split hm
          have hlt := matchRest_length hm
          simp only [List.length_cons] at ht hlt
          exact ih rest (by omega) (noDoubleWS_suffix Mk rest (hMkeq ▸ hnd))
            (cleanFor_suffix Mk rest (hMkeq ▸ hcj))
            (cleanFor_suffix Mk rest (hMkeq ▸ hck))
        | none =>
          rw [replaceAll_cons_nomatch hm]
          simp only [List.length_cons] at ht
          have hIH := ih cs (by omega) (noDoubleWS_tail hnd) (cleanFor_tail hcj)
            (cleanFor_tail hck)
          intro xs hxs
          rcases List.suffix_cons_iff.mp hxs with hxs | hxs
          · have h1 : g1 j = c := (List.cons.injEq _ _ _ _ ▸ hxs).1
            have h2 : xs = replaceAll k [] cs := (List.cons.injEq _ _ _ _ ▸ hxs).2
            obtain ⟨r, hr⟩ := cleanFor_head hcj h1.symm
            obtain ⟨Mj, hMjeq, hMjs⟩ := matchRest_split hr
            obtain ⟨Mj', hMj', hnm⟩ := shape_head_not_mem_tail hMjs
            have hkMj : g1 k ∉ Mj := g1_not_mem_shape (fun he => hjk he.symm) hMjs
            have hkMj' : g1 k ∉ Mj' := fun hmem => hkMj (hMj' ▸ List.mem_cons_of_mem _ hmem)
            have hcs_eq : cs = Mj' ++ r := by
              rw [hMj'] at hMjeq
              exact (List.cons.injEq _ _ _ _ ▸ hMjeq).2
            have hu : replaceAll k [] cs = Mj' ++ replaceAll k [] r := by
              rw [hcs_eq]
              exact replaceAll_append_free hkMj' _
            refine ⟨Mj, replaceAll k [] r, ?_, hMjs,
              noDoubleWS_append_left (hMjeq ▸ hnd)⟩
            rw [h2, hu, hMj']
            simp
          · exact hIH xs hxs
  exact fun t => H t.length t (Nat.le_refl _)

/-- Collapsing whitespace preserves cleanliness when every match text in
the title is itself free of double whitespace. -/
theorem cleanFor_collapseWS_of_cleanN {j : TimestampType} :
    ∀ u, CleanN j u → cleanFor j (collapseWS u) = true := by
  have H : ∀ n u, List.length u ≤ n → CleanN j u →
      cleanFor j (collapseWS u) = true := by
    intro n
    induction n with
    | zero =>
      intro u hu _
      cases u with
      | nil => rfl
      | cons c cs => simp at hu
    | succ n ih =>
      intro u hu hcn
      match u with
      | [] => rfl
      | [c] =>
        rw [collapseWS_single]
        by_cases hc : c = g1 j
        · obtain ⟨M, r, heq, hshape, _⟩ := hcn [] ⟨[], by simp [hc]⟩
          have h5 := shape_length hshape
          have hlen := congrArg List.length heq
          simp only [List.length_cons, List.length_nil, List.length_append] at hlen
          omega
        · rw [cleanFor_cons_ne hc]
          rfl
      | c1 :: c2 :: cs =>
        rw [collapseWS_cons₂]
        simp only [List.length_cons] at hu
        by_cases hb : (isWS c1 && isWS c2) = true
        · rw [if_pos hb]
          have hdw := length_dropWhile_le isWS (c2 :: cs)
          simp only [List.length_cons] at hdw
          have hsp : (c2 :: cs).dropWhile isWS <:+ (c1 :: c2 :: cs) := by
            obtain ⟨w, hw⟩ := dropWhile_split isWS (c2 :: cs)
            exact ⟨c1 :: w, by rw [List.cons_append, ← hw.1]⟩
          rw [cleanFor_cons_ne (fun hsp2 => g1_ne_space j hsp2.symm)]
          exact ih _ (by omega) (CleanN_suffix hsp hcn)
        · rw [if_neg hb]
          by_cases hc1 : c1 = g1 j
          · obtain ⟨M, r, heq, hshape, hndM⟩ :=
              hcn (c2 :: cs) ⟨[], by simp [hc1]⟩
            obtain ⟨M1, hM1, hnm⟩ := shape_head_not_mem_tail hshape
            have h5 := shape_length hshape
            have hM1ne : M1 ≠ [] := by
              intro hnil
              rw [hM1, hnil] at h5
              simp at h5
            have htl : c2 :: cs = M1 ++ r := by
              rw [hM1] at heq
              exact (List.cons.injEq _ _ _ _ ▸ heq).2
            have hlastM1 : ∀ d, M1.getLast? = some d → isWS d = false := by
              intro d hd
              obtain ⟨e, he, hedig⟩ := shape_last_digit hshape
              have hMeq : M.getLast? = M1.getLast? := by
                rw [hM1]
                have := @getLast?_append_of_ne_nil [g1 j] M1 hM1ne
                simpa using this
              rw [hMeq, hd] at he
              have : d = e := by injection he
              rw [this]
              exact isWS_eq_false_of_isDigit hedig
            have hndM1 : noDoubleWS M1 = true := by
              rw [hM1] at hndM
              exact noDoubleWS_tail hndM
            have hcoll : collapseWS (c2 :: cs) = M1 ++ collapseWS r := by
              rw [htl]
              exact collapseWS_append_of M1 hndM1 hM1ne hlastM1 r
            rw [hcoll]
            have hrlen : List.length r ≤ n := by
              have hlen := congrArg List.length heq
              simp only [List.length_cons, List.length_append] at hlen
              omega
            have hrsuf : r <:+ (c1 :: c2 :: cs) := ⟨M, by rw [hc1]; exact heq.symm⟩
            have hIHr : cleanFor j (collapseWS r) = true :=
              ih r hrlen (CleanN_suffix hrsuf hcn)
            rw [cleanFor_cons_iff]
            constructor
            · intro _
              have : c1 :: (M1 ++ collapseWS r) = M ++ collapseWS r := by
                rw [hM1, hc1]
                simp
              rw [this, matchRest_of_shape hshape]
              rfl
            · rw [cleanFor_append_free hnm]
              exact hIHr
          · rw [cleanFor_cons_ne hc1]
            have hsp : (c2 :: cs) <:+ (c1 :: c2 :: cs) := ⟨[c1], rfl⟩
            exact ih _ (by simp; omega) (CleanN_suffix hsp hcn)
  exact fun u => H u.length u (Nat.le_refl _)

theorem noDoubleWS_of_normalizedB {l : List Char} (h : normalizedB l = true) :
    noDoubleWS l = true := by
  unfold normalizedB at h
  simp only [Bool.and_eq_true] at h
  exact h.1.1

/-- Removing kind `k` from a double-whitespace-free title preserves
cleanliness for every other kind `j`. -/
theorem remove_preserves_clean {k j : TimestampType} (hjk : j ≠ k)
    {t : List Char} (hnd : noDoubleWS t = true) (hcj : cleanFor j t = true)
    (hck : cleanFor k t = true) :
    cleanFor j (removeTimestamp t k) = true := by
  unfold removeTimestamp
  exact cleanFor_trimBoth
    (cleanFor_collapseWS_of_cleanN _ (cleanN_replaceAll hjk t hnd hcj hck))

theorem g1_not_mem_removeTimestamp_mono {i : TimestampType} {u : List Char}
    (h : g1 i ∉ u) (k : TimestampType) : g1 i ∉ removeTimestamp u k := by
  intro hmem
  rcases mem_removeTimestamp hmem with hmem | hmem
  · exact h hmem
  · exact g1_ne_space i hmem

/-! ## Claim C7: the Todo transition -/

/-- C7 (amended).  For every source `s ≠ Todo`, the Todo transition equals
the four removals in the order Start, Pause, End, Completion.  On a
whitespace-normalized title in which every kind's leading glyph character
occurs only at the start of a full marker match, all four kinds are absent
afterwards (`hasTimestamp` is false for each); and the start → done → todo
full cycle on `"Task"` returns exactly `"Task"`.  (Unamended the
residual-marker part fails: removing one kind can splice a live match of
another kind together — see the counterexample.) -/
theorem c7_todo_transition_amended (ts : TimestampType → List Char)
    (t : List Char) (s : KanbanState) (hs : s ≠ KanbanState.todo)
    (hn : normalizedB t = true)
    (hc1 : cleanFor .start t = true) (hc2 : cleanFor .pause t = true)
    (hc3 : cleanFor .end_ t = true) (hc4 : cleanFor .completion t = true) :
    applyStateTransitionTimestamps ts t .todo s =
      removeTimestamp (removeTimestamp (removeTimestamp
        (removeTimestamp t .start) .pause) .end_) .completion ∧
    (∀ k, hasTimestamp (applyStateTransitionTimestamps ts t .todo s) k = false) ∧
    applyStateTransitionTimestamps tsFix (applyStateTransitionTimestamps tsFix
      (applyStateTransitionTimestamps tsFix "Task".toList .inprogress .todo)
      .done .inprogress) .todo .done = "Task".toList := by
  have hred : applyStateTransitionTimestamps ts t .todo s =
      removeTimestamp (removeTimestamp (removeTimestamp
        (removeTimestamp t .start) .pause) .end_) .completion := by
    cases s with
    | todo => exact absurd rfl hs
    | inprogress => rfl
    | done => rfl
    | onhold => rfl
  have hnd := noDoubleWS_of_normalizedB hn
  -- stage 1: remove Start
  have hS1 : g1 .start ∉ removeTimestamp t .start := g1_not_mem_removeTimestamp hc1
  have hp1 : cleanFor .pause (removeTimestamp t .start) = true :=
    remove_preserves_clean (by decide) hnd hc2 hc1
  have he1 : cleanFor .end_ (removeTimestamp t .start) = true :=
    remove_preserves_clean (by decide) hnd hc3 hc1
  have hco1 : cleanFor .completion (removeTimestamp t .start) = true :=
    remove_preserves_clean (by decide) hnd hc4 hc1
  have hnd1 := noDoubleWS_of_normalizedB (normalizedB_removeTimestamp t .start)
  -- stage 2: remove Pause
  have hS2 : g1 .start ∉ removeTimestamp (removeTimestamp t .start) .pause :=
    g1_not_mem_removeTimestamp_mono hS1 .pause
  have hP2 : g1 .pause ∉ removeTimestamp (removeTimestamp t .start) .pause :=
    g1_not_mem_removeTimestamp hp1
  have he2 : cleanFor .end_
      (removeTimestamp (removeTimestamp t .start) .pause) = true :=
    remove_preserves_clean (by decide) hnd1 he1 hp1
  have hco2 : cleanFor .completion
      (removeTimestamp (removeTimestamp t .start) .pause) = true :=
    remove_preserves_clean (by decide) hnd1 hco1 hp1
  have hnd2 := noDoubleWS_of_normalizedB
    (normalizedB_removeTimestamp (removeTimestamp t .start) .pause)
  -- stage 3: remove End
  have hS3 : g1 .start ∉ removeTimestamp
      (removeTimestamp (removeTimestamp t .start) .pause) .end_ :=
    g1_not_mem_removeTimestamp_mono hS2 .end_
  have hP3 : g1 .pause ∉ removeTimestamp
      (removeTimestamp (removeTimestamp t .start) .pause) .end_ :=
    g1_not_mem_removeTimestamp_mono hP2 .end_
  have hE3 : g1 .end_ ∉ removeTimestamp
      (removeTimestamp (removeTimestamp t .start) .pause) .end_ :=
    g1_not_mem_removeTimestamp he2
  have hco3 : cleanFor .completion (removeTimestamp
      (removeTimestamp (removeTimestamp t .start) .pause) .end_) = true :=
    remove_preserves_clean (by decide) hnd2 hco2 he2
  -- stage 4: remove Completion
  have hS4 := g1_not_mem_removeTimestamp_mono hS3 TimestampType.completion
  have hP4 := g1_not_mem_removeTimestamp_mono hP3 TimestampType.completion
  have hE4 := g1_not_mem_removeTimestamp_mono hE3 TimestampType.completion
  have hC4 : g1 .completion ∉ removeTimestamp (removeTimestamp
      (removeTimestamp (removeTimestamp t .start) .pause) .end_) .completion :=
    g1_not_mem_removeTimestamp hco3
  refine ⟨hred, ?_, by decide⟩
  intro k
  rw [hred]
  cases k with
  | start => exact hasMatch_eq_false_of_not_mem hS4
  | pause => exact hasMatch_eq_false_of_not_mem hP4
  | end_ => exact hasMatch_eq_false_of_not_mem hE4
  | completion => exact hasMatch_eq_false_of_not_mem hC4

/-- Witness for the amended C7 on a clean title carrying Start and End
markers moved from Done to Todo. -/
theorem c7_todo_transition_amended_witness :
    hasTimestamp (applyStateTransitionTimestamps tsFix
      "Task ▶️ 2024-01-01 09:00 ⏹️ 2024-01-01 10:00".toList .todo .done)
      .start = false := by
  have h := c7_todo_transition_amended tsFix
    "Task ▶️ 2024-01-01 09:00 ⏹️ 2024-01-01 10:00".toList .done (by simp)
    (by decide) (by decide) (by decide) (by decide) (by decide)
  exact h.2.1 .start

/-! ## Claim C6: the canonical order invariant -/

/-- Canonical rank: Completion < Start < Pause < End. -/
def rank : TimestampType → Nat
  | .completion => 0
  | .start => 1
  | .pause => 2
  | .end_ => 3

/-- The freshly formatted marker text of a (kind, stamp) pair. -/
def markerOf (p : TimestampType × List Char) : List Char :=
  glyph p.1 ++ ' ' :: p.2

/-- Layout of a list of markers as the from-empty upsert sequence produces
it: a single space before each marker. -/
def render : List (TimestampType × List Char) → List Char
  | [] => []
  | p :: rest => ' ' :: markerOf p ++ render rest

theorem render_append : ∀ a b, render (a ++ b) = render a ++ render b := by
  intro a
  induction a with
  | nil => intro b; rfl
  | cons p rest ih =>
    intro b
    simp only [List.cons_append, render, ih]
    simp [ih]

/-- The kind whose pattern matches at this position, if any, with the scan
remainder. -/
def kindAt (l : List Char) : Option (TimestampType × List Char) :=
  match matchRest .completion l with
  | some r => some (.completion, r)
  | none =>
    match matchRest .start l with
    | some r => some (.start, r)
    | none =>
      match matchRest .pause l with
      | some r => some (.pause, r)
      | none =>
        match matchRest .end_ l with
        | some r => some (.end_, r)
        | none => none

theorem kindAt_length {l : List Char} {k : TimestampType} {r : List Char}
    (h : kindAt l = some (k, r)) : r.length < l.length := by
  unfold kindAt at h
  cases h1 : matchRest .completion l with
  | some r1 =>
    rw [h1] at h
    simp at h
    exact h.2 ▸ matchRest_length h1
  | none =>
    rw [h1] at h
    cases h2 : matchRest .start l with
    | some r2 =>
      rw [h2] at h
      simp at h
      exact h.2 ▸ matchRest_length h2
    | none =>
      rw [h2] at h
      cases h3 : matchRest .pause l with
      | some r3 =>
        rw [h3] at h
        simp at h
        exact h.2 ▸ matchRest_length h3
      | none =>
        rw [h3] at h
        cases h4 : matchRest .end_ l with
        | some r4 =>
          rw [h4] at h
          simp at h
          exact h.2 ▸ matchRest_length h4
        | none => rw [h4] at h; simp at h

/-- Left-to-right scan listing the marker kinds as they occur. -/
def kindsScanGo : Nat → List Char → List TimestampType
  | 0, _ => []
  | _ + 1, [] => []
  | fuel + 1, c :: cs =>
    match kindAt (c :: cs) with
    | some (k, r) => k :: kindsScanGo fuel r
    | none => kindsScanGo fuel cs

/-- The sequence of marker kinds a left-to-right scan of the title yields. -/
def kindsScan (l : List Char) : List TimestampType :=
  kindsScanGo l.length l

theorem kindsScanGo_fuel :
    ∀ n m l, List.length l ≤ n → List.length l ≤ m →
      kindsScanGo n l = kindsScanGo m l := by
  intro n
  induction n with
  | zero =>
    intro m l hn _
    have : l = [] := by
      cases l with
      | nil => rfl
      | cons c cs => simp at hn
    subst this
    cases m <;> simp [kindsScanGo]
  | succ n ih =>
    intro m l hn hm
    cases l with
    | nil => cases m <;> simp [kindsScanGo]
    | cons c cs =>
      cases m with
      | zero => simp at hm
      | succ m =>
        cases h : kindAt (c :: cs) with
        | some p =>
          obtain ⟨k, r⟩ := p
          have hlt := kindAt_length h
          simp only [List.length_cons] at hn hm hlt
          simp only [kindsScanGo, h]
          rw [ih m r (by omega) (by omega)]
        | none =>
          simp only [List.length_cons] at hn hm
          simp only [kindsScanGo, h]
          rw [ih m cs (by omega) (by omega)]

theorem kindsScan_nil : kindsScan [] = [] := rfl

theorem kindsScan_cons_match {c : Char} {cs : List Char} {k : TimestampType}
    {r : List Char} (h : kindAt (c :: cs) = some (k, r)) :
    kindsScan (c :: cs) = k :: kindsScan r := by
  show kindsScanGo (cs.length + 1) (c :: cs) = _
  have hlt := kindAt_length h
  simp only [List.length_cons] at hlt
  simp only [kindsScanGo, h]
  rw [kindsScanGo_fuel cs.length r.length r (by omega) (Nat.le_refl _)]
  rfl

theorem kindsScan_cons_nomatch {c : Char} {cs : List Char}
    (h : kindAt (c :: cs) = none) : kindsScan (c :: cs) = kindsScan cs := by
  show kindsScanGo (cs.length + 1) (c :: cs) = _
  simp only [kindsScanGo, h]
  rfl

theorem markerShape_markerOf {p : TimestampType × List Char}
    (h : validStamp p.1 p.2 = true) : MarkerShape p.1 (markerOf p) :=
  markerShape_of_validStamp h

theorem g1_not_mem_render {j : TimestampType} :
    ∀ l : List (TimestampType × List Char),
      (∀ p ∈ l, validStamp p.1 p.2 = true) → j ∉ l.map Prod.fst →
      g1 j ∉ render l := by
  intro l
  induction l with
  | nil => intro _ _; simp [render]
  | cons p rest ih =>
    intro hv hj hmem
    simp only [render, List.cons_append] at hmem
    rcases List.mem_cons.mp hmem with hmem | hmem
    · exact g1_ne_space j hmem
    · rcases List.mem_append.mp hmem with hmem | hmem
      · have hne : j ≠ p.1 := by
          intro he
          exact hj (by rw [List.map_cons]; exact he ▸ List.mem_cons_self _ _)
        exact g1_not_mem_shape hne (markerShape_markerOf (hv p (List.mem_cons_self _ _))) hmem
      · exact ih (fun q hq => hv q (List.mem_cons_of_mem _ hq))
          (fun hq => hj (by rw [List.map_cons]; exact List.mem_cons_of_mem _ hq)) hmem

theorem firstMatchPos_append_shift {j : TimestampType} :
    ∀ (A : List Char), g1 j ∉ A → ∀ B,
      firstMatchPos j (A ++ B) = (firstMatchPos j B).map (· + A.length) := by
  intro A
  induction A with
  | nil =>
    intro _ B
    cases hfb : firstMatchPos j B <;> simp [hfb]
  | cons c A' ih =>
    intro hA B
    have hc : c ≠ g1 j := fun hc => hA (hc ▸ List.mem_cons_self c A')
    rw [List.cons_append]
    simp only [firstMatchPos]
    rw [matchRest_eq_none_of_head_ne hc]
    simp only [Option.isSome_none, Bool.false_eq_true, if_false]
    rw [ih (fun hm => hA (List.mem_cons_of_mem _ hm)) B]
    cases firstMatchPos j B with
    | none => rfl
    | some x =>
      simp
      omega

theorem firstMatchPos_marker_head {j : TimestampType} {m : List Char}
    (h : MarkerShape j m) (X : List Char) :
    firstMatchPos j (m ++ X) = some 0 := by
  obtain ⟨Ms, hMs⟩ := shape_head h
  have hmr := matchRest_of_shape h X
  rw [hMs] at hmr ⊢
  rw [List.cons_append] at hmr ⊢
  simp only [firstMatchPos]
  rw [hmr]
  rfl

theorem firstMatchPos_render_none {j : TimestampType}
    {l : List (TimestampType × List Char)}
    (hv : ∀ p ∈ l, validStamp p.1 p.2 = true) (hj : j ∉ l.map Prod.fst) :
    firstMatchPos j (render l) = none :=
  firstMatchPos_eq_none_of_not_mem (g1_not_mem_render l hv hj)

theorem firstMatchPos_render_at {j : TimestampType} {s : List Char}
    {l1 l2 : List (TimestampType × List Char)}
    (hv1 : ∀ p ∈ l1, validStamp p.1 p.2 = true) (hs : validStamp j s = true)
    (hj : j ∉ l1.map Prod.fst) :
    firstMatchPos j (render (l1 ++ (j, s) :: l2)) =
      some ((render l1).length + 1) := by
  rw [render_append]
  have hA : g1 j ∉ render l1 ++ [' '] := by
    intro hmem
    rcases List.mem_append.mp hmem with hmem | hmem
    · exact g1_not_mem_render l1 hv1 hj hmem
    · simp at hmem
      exact g1_ne_space j hmem
  have hshape : MarkerShape j (markerOf (j, s)) := markerShape_markerOf hs
  have heq : render l1 ++ render ((j, s) :: l2) =
      (render l1 ++ [' ']) ++ (markerOf (j, s) ++ render l2) := by
    simp only [render]
    simp
  rw [heq, firstMatchPos_append_shift _ hA, firstMatchPos_marker_head hshape]
  simp

theorem render_getLast :
    ∀ l : List (TimestampType × List Char), l ≠ [] →
      (∀ p ∈ l, validStamp p.1 p.2 = true) →
      ∃ d, (render l).getLast? = some d ∧ isDigit d = true := by
  intro l
  induction l with
  | nil => intro h _; exact absurd rfl h
  | cons p rest ih =>
    intro _ hv
    by_cases hr : rest = []
    · subst hr
      obtain ⟨d, hd, hdig⟩ :=
        shape_last_digit (markerShape_markerOf (hv p (List.mem_cons_self _ _)))
      refine ⟨d, ?_, hdig⟩
      have hne : markerOf p ≠ [] :=
        shape_ne_nil (markerShape_markerOf (hv p (List.mem_cons_self _ _)))
      simp only [render, List.append_nil]
      have h2 := @getLast?_append_of_ne_nil [' '] (markerOf p) hne
      simp only [List.singleton_append] at h2
      rw [h2]
      exact hd
    · obtain ⟨d, hd, hdig⟩ := ih hr (fun x hx => hv x (List.mem_cons_of_mem _ hx))
      refine ⟨d, ?_, hdig⟩
      have hne : render rest ≠ [] := by
        cases rest with
        | nil => exact absurd rfl hr
        | cons q rest' => simp [render]
      simp only [render]
      have h3 := @getLast?_append_of_ne_nil (' ' :: markerOf p) (render rest) hne
      rw [h3]
      exact hd

theorem trimEnd_render {l : List (TimestampType × List Char)}
    (hv : ∀ p ∈ l, validStamp p.1 p.2 = true) : trimEnd (render l) = render l := by
  cases hl : l with
  | nil => rfl
  | cons p rest =>
    rw [← hl]
    obtain ⟨d, hd, hdig⟩ := render_getLast l (by simp [hl]) hv
    apply trimEnd_eq_self_of_getLast
    rw [hd]
    simp [isWS_eq_false_of_isDigit hdig]

theorem trimEnd_append_space (A : List Char) : trimEnd (A ++ [' ']) = trimEnd A := by
  unfold trimEnd
  rw [List.reverse_append]
  have hsp : isWS ' ' = true := by decide
  simp only [List.reverse_cons, List.reverse_nil, List.nil_append,
    List.singleton_append, List.dropWhile, hsp]
  simp

theorem take_len_succ : ∀ (A : List Char) (c : Char) (B : List Char),
    (A ++ c :: B).take (A.length + 1) = A ++ [c] := by
  intro A
  induction A with
  | nil => intro c B; simp
  | cons a A' ih =>
    intro c B
    simp only [List.cons_append, List.length_cons, List.take_succ_cons]
    rw [ih c B]

theorem drop_len_succ : ∀ (A : List Char) (c : Char) (B : List Char),
    (A ++ c :: B).drop (A.length + 1) = B := by
  intro A
  induction A with
  | nil => intro c B; simp
  | cons a A' ih =>
    intro c B
    simp only [List.cons_append, List.length_cons, List.drop_succ_cons]
    exact ih c B

theorem g1_inj {j k : TimestampType} (h : g1 j = g1 k) : j = k := by
  cases j <;> cases k <;> first
    | rfl
    | exact absurd h (by decide)

theorem matchRest_space_none (j : TimestampType) (X : List Char) :
    matchRest j (' ' :: X) = none :=
  matchRest_eq_none_of_head_ne (fun h => g1_ne_space j h.symm)

theorem kindAt_space (X : List Char) : kindAt (' ' :: X) = none := by
  unfold kindAt
  rw [matchRest_space_none, matchRest_space_none, matchRest_space_none,
    matchRest_space_none]

theorem kindAt_marker {k : TimestampType} {s : List Char}
    (hs : validStamp k s = true) (X : List Char) :
    kindAt (markerOf (k, s) ++ X) = some (k, X) := by
  have hshape : MarkerShape k (markerOf (k, s)) := markerShape_markerOf hs
  have hm := matchRest_of_shape hshape X
  obtain ⟨Ms, hMs⟩ := shape_head hshape
  have hother : ∀ j : TimestampType, j ≠ k → matchRest j (markerOf (k, s) ++ X) = none := by
    intro j hj
    rw [hMs, List.cons_append]
    exact matchRest_eq_none_of_head_ne (fun h => hj (g1_inj h.symm))
  unfold kindAt
  cases k with
  | completion => rw [hm]
  | start =>
    rw [hother .completion (by decide), hm]
  | pause =>
    rw [hother .completion (by decide), hother .start (by decide), hm]
  | end_ =>
    rw [hother .completion (by decide), hother .start (by decide),
      hother .pause (by decide), hm]

/-- The scan over a rendered marker list yields exactly its kinds in
order. -/
theorem kindsScan_render :
    ∀ l : List (TimestampType × List Char),
      (∀ p ∈ l, validStamp p.1 p.2 = true) →
      kindsScan (render l) = l.map Prod.fst := by
  intro l
  induction l with
  | nil => intro _; rfl
  | cons p rest ih =>
    intro hv
    have hvp := hv p (List.mem_cons_self _ _)
    have hshape : MarkerShape p.1 (markerOf p) := markerShape_markerOf hvp
    obtain ⟨Ms, hMs⟩ := shape_head hshape
    have hrend : render (p :: rest) = ' ' :: (markerOf p ++ render rest) := by
      simp [render]
    rw [hrend, kindsScan_cons_nomatch (kindAt_space _)]
    have hk : kindAt (markerOf p ++ render rest) = some (p.1, render rest) := by
      have := kindAt_marker hvp (render rest)
      simpa using this
    have hcons : markerOf p ++ render rest = g1 p.1 :: (Ms ++ render rest) := by
      rw [hMs, List.cons_append]
    rw [hcons] at hk ⊢
    rw [kindsScan_cons_match hk]
    rw [ih (fun q hq => hv q (List.mem_cons_of_mem _ hq))]
    rfl

/-- The insertion position the source's switch computes for a kind. -/
def insertPosOf (k : TimestampType) (t : List Char) : Nat :=
  match k with
  | .completion =>
    match firstMatchPos .start t with
    | some i => i
    | none =>
      match firstMatchPos .pause t with
      | some i => i
      | none =>
        match firstMatchPos .end_ t with
        | some i => i
        | none => t.length
  | .start =>
    match firstMatchPos .pause t with
    | some i => i
    | none =>
      match firstMatchPos .end_ t with
      | some i => i
      | none => t.length
  | .pause =>
    match firstMatchPos .end_ t with
    | some i => i
    | none => t.length
  | .end_ => t.length

theorem appendTimestampInOrder_eq (t : List Char) (k : TimestampType)
    (m : List Char) :
    appendTimestampInOrder t k m =
      if insertPosOf k t = t.length then trimEnd t ++ ' ' :: m
      else trimEnd (t.take (insertPosOf k t)) ++ ' ' :: m ++
        (if (t.drop (insertPosOf k t)).head? = some ' ' then [] else [' ']) ++
        trimStart (t.drop (insertPosOf k t)) := by
  cases k <;> rfl

theorem not_mem_map_fst {j : TimestampType} {l : List (TimestampType × List Char)}
    (h : ∀ p ∈ l, p.1 ≠ j) : j ∉ l.map Prod.fst := by
  intro hj
  obtain ⟨p, hp, hpe⟩ := List.mem_map.mp hj
  exact h p hp hpe

theorem render_append_single (l : List (TimestampType × List Char))
    (p : TimestampType × List Char) :
    render (l ++ [p]) = render l ++ ' ' :: markerOf p := by
  rw [render_append]
  simp [render]

theorem render_middle (l1 : List (TimestampType × List Char))
    (x q : TimestampType × List Char) (l2' : List (TimestampType × List Char)) :
    render (l1 ++ x :: q :: l2') =
      render l1 ++ ' ' :: markerOf x ++ ' ' :: markerOf q ++ render l2' := by
  rw [render_append]
  simp [render]

/-- Evaluation of the insertion mechanics at the head of the second block:
the marker is spliced in front of `q`'s marker with single spaces. -/
theorem append_insert_eval (l1 : List (TimestampType × List Char))
    (q : TimestampType × List Char) (l2' : List (TimestampType × List Char))
    (m : List Char) (hv1 : ∀ p ∈ l1, validStamp p.1 p.2 = true)
    (hvq : validStamp q.1 q.2 = true) :
    (if (render l1).length + 1 = (render (l1 ++ q :: l2')).length then
      trimEnd (render (l1 ++ q :: l2')) ++ ' ' :: m
    else
      trimEnd ((render (l1 ++ q :: l2')).take ((render l1).length + 1)) ++
        ' ' :: m ++
        (if ((render (l1 ++ q :: l2')).drop ((render l1).length + 1)).head? =
            some ' ' then [] else [' ']) ++
        trimStart ((render (l1 ++ q :: l2')).drop ((render l1).length + 1)))
      = render l1 ++ ' ' :: m ++ ' ' :: markerOf q ++ render l2' := by
  have hshape : MarkerShape q.1 (markerOf q) := markerShape_markerOf hvq
  have h5 := shape_length hshape
  obtain ⟨Ms, hMs⟩ := shape_head hshape
  have hform : render (l1 ++ q :: l2') =
      render l1 ++ ' ' :: (markerOf q ++ render l2') := by
    rw [render_append]
    simp [render]
  have hlen : (render (l1 ++ q :: l2')).length =
      (render l1).length + 1 + (markerOf q).length + (render l2').length := by
    rw [hform]
    simp
    omega
  have hne : ¬((render l1).length + 1 = (render (l1 ++ q :: l2')).length) := by
    rw [hlen]
    omega
  rw [if_neg hne]
  have htake : (render (l1 ++ q :: l2')).take ((render l1).length + 1) =
      render l1 ++ [' '] := by
    rw [hform]
    exact take_len_succ _ _ _
  have hdrop : (render (l1 ++ q :: l2')).drop ((render l1).length + 1) =
      markerOf q ++ render l2' := by
    rw [hform]
    exact drop_len_succ _ _ _
  rw [htake, hdrop, trimEnd_append_space, trimEnd_render hv1]
  have hhead : (markerOf q ++ render l2').head? = some (g1 q.1) := by
    rw [hMs]
    rfl
  have hsep : ¬((markerOf q ++ render l2').head? = some ' ') := by
    rw [hhead]
    intro hcontr
    simp at hcontr
    exact g1_ne_space q.1 hcontr
  rw [if_neg hsep]
  have hts : trimStart (markerOf q ++ render l2') = markerOf q ++ render l2' := by
    unfold trimStart
    rw [hMs, List.cons_append]
    exact dropWhile_cons_neg (isWS_g1 q.1) _
  rw [hts]
  simp

/-- Evaluation of the append-at-end branch on a rendered list. -/
theorem append_end_eval (l : List (TimestampType × List Char)) (m : List Char)
    (hv : ∀ p ∈ l, validStamp p.1 p.2 = true) :
    trimEnd (render l) ++ ' ' :: m = render l ++ ' ' :: m := by
  rw [trimEnd_render hv]

theorem rank_inj {a b : TimestampType} (h : rank a = rank b) : a = b := by
  cases a <;> cases b <;> first | rfl | (simp [rank] at h)

theorem not_mem_fst_of_rank_lt {j : TimestampType}
    {l : List (TimestampType × List Char)}
    (h : ∀ p ∈ l, rank p.1 < rank j) : j ∉ l.map Prod.fst :=
  not_mem_map_fst (fun p hp he => Nat.lt_irrefl _ (he ▸ h p hp))

theorem not_mem_fst_of_rank_gt {j : TimestampType}
    {l : List (TimestampType × List Char)}
    (h : ∀ p ∈ l, rank j < rank p.1) : j ∉ l.map Prod.fst :=
  not_mem_map_fst (fun p hp he => Nat.lt_irrefl _ (he ▸ h p hp))

theorem not_mem_fst_append {j : TimestampType}
    {l1 l2 : List (TimestampType × List Char)}
    (h1 : j ∉ l1.map Prod.fst) (h2 : j ∉ l2.map Prod.fst) :
    j ∉ (l1 ++ l2).map Prod.fst := by
  rw [List.map_append]
  intro hm
  rcases List.mem_append.mp hm with hm | hm
  · exact h1 hm
  · exact h2 hm

/-- If nothing in the rendered list carries a kind of rank above `k`, every
higher-ranked pattern is absent and the insertion position is the title's
end. -/
theorem insertPosOf_render_end (k : TimestampType)
    (l : List (TimestampType × List Char))
    (hv : ∀ p ∈ l, validStamp p.1 p.2 = true)
    (hlo : ∀ p ∈ l, rank p.1 < rank k) :
    insertPosOf k (render l) = (render l).length := by
  have hnone : ∀ j : TimestampType, rank k < rank j →
      firstMatchPos j (render l) = none := by
    intro j hj
    exact firstMatchPos_render_none hv
      (not_mem_fst_of_rank_lt (fun p hp => Nat.lt_trans (hlo p hp) hj))
  cases k with
  | completion =>
    simp only [insertPosOf]
    rw [hnone .start (by simp [rank]), hnone .pause (by simp [rank]),
      hnone .end_ (by simp [rank])]
  | start =>
    simp only [insertPosOf]
    rw [hnone .pause (by simp [rank]), hnone .end_ (by simp [rank])]
  | pause =>
    simp only [insertPosOf]
    rw [hnone .end_ (by simp [rank])]
  | end_ => rfl

/-- When the first higher-ranked marker sits right after `l1`, the insertion
position is just past `l1`'s rendering (before that marker's single space). -/
theorem insertPosOf_render_mid (k : TimestampType) (qk : TimestampType)
    (qs : List Char) (l1 l2' : List (TimestampType × List Char))
    (hv1 : ∀ p ∈ l1, validStamp p.1 p.2 = true)
    (hvq : validStamp qk qs = true)
    (hv2 : ∀ p ∈ l2', validStamp p.1 p.2 = true)
    (hl1 : ∀ p ∈ l1, rank p.1 < rank k)
    (hkq : rank k < rank qk)
    (hl2 : ∀ p ∈ l2', rank qk < rank p.1) :
    insertPosOf k (render (l1 ++ (qk, qs) :: l2')) = (render l1).length + 1 := by
  have hvall : ∀ p ∈ l1 ++ (qk, qs) :: l2', validStamp p.1 p.2 = true := by
    intro p hp
    rcases List.mem_append.mp hp with hp | hp
    · exact hv1 p hp
    · rcases List.mem_cons.mp hp with hp | hp
      · rw [hp]; exact hvq
      · exact hv2 p hp
  have hnone : ∀ j : TimestampType, rank k < rank j → rank j < rank qk →
      firstMatchPos j (render (l1 ++ (qk, qs) :: l2')) = none := by
    intro j hj1 hj2
    refine firstMatchPos_render_none hvall ?_
    refine not_mem_fst_append
      (not_mem_fst_of_rank_lt (fun p hp => Nat.lt_trans (hl1 p hp) hj1)) ?_
    refine not_mem_map_fst ?_
    intro p hp he
    rcases List.mem_cons.mp hp with hp | hp
    · rw [hp] at he
      exact Nat.lt_irrefl _ (he ▸ hj2)
    · exact Nat.lt_irrefl _ (he ▸ Nat.lt_trans hj2 (hl2 p hp))
  have hat : firstMatchPos qk (render (l1 ++ (qk, qs) :: l2')) =
      some ((render l1).length + 1) :=
    firstMatchPos_render_at hv1 hvq
      (not_mem_fst_of_rank_lt (fun p hp => Nat.lt_trans (hl1 p hp) hkq))
  cases k with
  | completion =>
    cases qk with
    | completion => simp [rank] at hkq
    | start =>
      simp only [insertPosOf]
      rw [hat]
    | pause =>
      simp only [insertPosOf]
      rw [hnone .start (by simp [rank]) (by simp [rank]), hat]
    | end_ =>
      simp only [insertPosOf]
      rw [hnone .start (by simp [rank]) (by simp [rank]),
        hnone .pause (by simp [rank]) (by simp [rank]), hat]
  | start =>
    cases qk with
    | completion => simp [rank] at hkq
    | start => simp [rank] at hkq
    | pause =>
      simp only [insertPosOf]
      rw [hat]
    | end_ =>
      simp only [insertPosOf]
      rw [hnone .pause (by simp [rank]) (by simp [rank]), hat]
  | pause =>
    cases qk with
    | completion => simp [rank] at hkq
    | start => simp [rank] at hkq
    | pause => simp [rank] at hkq
    | end_ =>
      simp only [insertPosOf]
      rw [hat]
  | end_ =>
    cases qk <;> simp [rank] at hkq

theorem upsertTimestamp_no_match {t : List Char} {k : TimestampType}
    (s : List Char) (hm : hasMatch k t = false) :
    upsertTimestamp t k s = appendTimestampInOrder t k (glyph k ++ ' ' :: s) := by
  unfold upsertTimestamp
  rw [hm]
  rfl

/-- Upserting an absent kind into a rendered sorted marker list inserts the
fresh marker exactly at its rank position. -/
theorem upsert_render (k : TimestampType) (s : List Char)
    (l1 l2 : List (TimestampType × List Char))
    (hv1 : ∀ p ∈ l1, validStamp p.1 p.2 = true)
    (hv2 : ∀ p ∈ l2, validStamp p.1 p.2 = true)
    (hs : validStamp k s = true)
    (hl1 : ∀ p ∈ l1, rank p.1 < rank k)
    (hl2 : ∀ q ∈ l2, rank k < rank q.1)
    (hsorted : List.Pairwise (fun p q => rank p.1 < rank q.1) l2) :
    upsertTimestamp (render (l1 ++ l2)) k s = render (l1 ++ (k, s) :: l2) := by
  have hknot : g1 k ∉ render (l1 ++ l2) := by
    refine g1_not_mem_render _ ?_ ?_
    · intro p hp
      rcases List.mem_append.mp hp with hp | hp
      · exact hv1 p hp
      · exact hv2 p hp
    · exact not_mem_fst_append (not_mem_fst_of_rank_lt hl1)
        (not_mem_fst_of_rank_gt hl2)
  have hm : hasMatch k (render (l1 ++ l2)) = false :=
    hasMatch_eq_false_of_not_mem hknot
  rw [upsertTimestamp_no_match s hm, appendTimestampInOrder_eq]
  cases l2 with
  | nil =>
    simp only [List.append_nil] at *
    rw [insertPosOf_render_end k l1 hv1 hl1, if_pos rfl, trimEnd_render hv1,
      render_append_single]
    rfl
  | cons q l2' =>
    obtain ⟨qk, qs⟩ := q
    have hvq : validStamp qk qs = true := hv2 (qk, qs) (List.mem_cons_self _ _)
    have hv2' : ∀ p ∈ l2', validStamp p.1 p.2 = true :=
      fun p hp => hv2 p (List.mem_cons_of_mem _ hp)
    have hkq : rank k < rank qk := hl2 (qk, qs) (List.mem_cons_self _ _)
    have hl2' : ∀ p ∈ l2', rank qk < rank p.1 :=
      (List.pairwise_cons.mp hsorted).1
    rw [insertPosOf_render_mid k qk qs l1 l2' hv1 hvq hv2' hl1 hkq hl2']
    rw [append_insert_eval l1 (qk, qs) l2' _ hv1 hvq, render_middle]
    rfl

/-- A rank-sorted list splits around any absent rank, and inserting there
keeps it sorted. -/
theorem sorted_split (k : TimestampType) (s : List Char) :
    ∀ l : List (TimestampType × List Char),
      List.Pairwise (fun p q => rank p.1 < rank q.1) l →
      (∀ p ∈ l, rank p.1 ≠ rank k) →
      ∃ l1 l2, l = l1 ++ l2 ∧ (∀ p ∈ l1, rank p.1 < rank k) ∧
        (∀ q ∈ l2, rank k < rank q.1) ∧
        List.Pairwise (fun p q => rank p.1 < rank q.1) (l1 ++ (k, s) :: l2) := by
  intro l
  induction l with
  | nil =>
    intro _ _
    exact ⟨[], [], rfl, by simp, by simp, by simp⟩
  | cons q rest ih =>
    intro hsorted hne
    have hq := hne q (List.mem_cons_self _ _)
    have hrest := (List.pairwise_cons.mp hsorted).2
    have hqall := (List.pairwise_cons.mp hsorted).1
    rcases Nat.lt_or_ge (rank q.1) (rank k) with hlt | hge
    · obtain ⟨l1, l2, heq, h1, h2, hs2⟩ := ih hrest
        (fun p hp => hne p (List.mem_cons_of_mem _ hp))
      refine ⟨q :: l1, l2, by rw [heq, List.cons_append], ?_, h2, ?_⟩
      · intro p hp
        rcases List.mem_cons.mp hp with hp | hp
        · rw [hp]; exact hlt
        · exact h1 p hp
      · rw [List.cons_append]
        refine List.pairwise_cons.mpr ⟨?_, hs2⟩
        intro b hb
        rcases List.mem_append.mp hb with hb | hb
        · exact hqall b (heq ▸ List.mem_append.mpr (Or.inl hb))
        · rcases List.mem_cons.mp hb with hb | hb
          · rw [hb]; exact hlt
          · exact hqall b (heq ▸ List.mem_append.mpr (Or.inr hb))
    · have hgt : rank k < rank q.1 := Nat.lt_of_le_of_ne hge (Ne.symm hq)
      refine ⟨[], q :: rest, rfl, by simp, ?_, ?_⟩
      · intro b hb
        rcases List.mem_cons.mp hb with hb | hb
        · rw [hb]; exact hgt
        · exact Nat.lt_trans hgt (hqall b hb)
      · rw [List.nil_append]
        refine List.pairwise_cons.mpr ⟨?_, hsorted⟩
        intro b hb
        rcases List.mem_cons.mp hb with hb | hb
        · rw [hb]; exact hgt
        · exact Nat.lt_trans hgt (hqall b hb)

/-- The title obtained by running a sequence of upserts from the empty
title, each stamped by the clock `ts`. -/
def foldUpserts (ts : TimestampType → List Char) (seq : List TimestampType) :
    List Char :=
  seq.foldl (fun t k => upsertTimestamp t k (ts k)) []

theorem foldl_upsert_render (ts : TimestampType → List Char)
    (hts : ∀ k, validStamp k (ts k) = true) :
    ∀ (seq : List TimestampType) (l : List (TimestampType × List Char)),
      List.Pairwise (fun a b => a ≠ b) seq →
      (∀ j ∈ seq, j ∉ l.map Prod.fst) →
      (∀ p ∈ l, validStamp p.1 p.2 = true) →
      List.Pairwise (fun p q => rank p.1 < rank q.1) l →
      ∃ l', seq.foldl (fun t k => upsertTimestamp t k (ts k)) (render l) =
          render l' ∧
        List.Pairwise (fun p q => rank p.1 < rank q.1) l' ∧
        (∀ p ∈ l', validStamp p.1 p.2 = true) ∧
        (∀ j, j ∈ l'.map Prod.fst ↔ j ∈ seq ∨ j ∈ l.map Prod.fst) := by
  intro seq
  induction seq with
  | nil =>
    intro l _ _ hv hsorted
    exact ⟨l, rfl, hsorted, hv, fun j => by simp⟩
  | cons k seq' ih =>
    intro l hdist hmem hv hsorted
    have hkl : k ∉ l.map Prod.fst := hmem k (List.mem_cons_self _ _)
    have hne_rank : ∀ p ∈ l, rank p.1 ≠ rank k := by
      intro p hp he
      exact hkl (List.mem_map.mpr ⟨p, hp, rank_inj he⟩)
    obtain ⟨l1, l2, heq, h1, h2, hsortedL⟩ :=
      sorted_split k (ts k) l hsorted hne_rank
    have hv1 : ∀ p ∈ l1, validStamp p.1 p.2 = true :=
      fun p hp => hv p (heq ▸ List.mem_append.mpr (Or.inl hp))
    have hv2 : ∀ p ∈ l2, validStamp p.1 p.2 = true :=
      fun p hp => hv p (heq ▸ List.mem_append.mpr (Or.inr hp))
    have hs2 : List.Pairwise (fun p q => rank p.1 < rank q.1) l2 :=
      (List.pairwise_cons.mp (List.pairwise_append.mp hsortedL).2.1).2
    have hstep : upsertTimestamp (render l) k (ts k) =
        render (l1 ++ (k, ts k) :: l2) := by
      rw [heq]
      exact upsert_render k (ts k) l1 l2 hv1 hv2 (hts k) h1 h2 hs2
    have hvL : ∀ p ∈ l1 ++ (k, ts k) :: l2, validStamp p.1 p.2 = true := by
      intro p hp
      rcases List.mem_append.mp hp with hp | hp
      · exact hv1 p hp
      · rcases List.mem_cons.mp hp with hp | hp
        · rw [hp]; exact hts k
        · exact hv2 p hp
    have hLmem : ∀ j, j ∈ (l1 ++ (k, ts k) :: l2).map Prod.fst ↔
        j = k ∨ j ∈ l.map Prod.fst := by
      intro j
      rw [heq]
      simp only [List.map_append, List.map_cons, List.mem_append,
        List.mem_cons]
      tauto
    have hmemL : ∀ j ∈ seq', j ∉ (l1 ++ (k, ts k) :: l2).map Prod.fst := by
      intro j hj hjL
      rcases (hLmem j).mp hjL with hjk | hjl
      · exact (List.pairwise_cons.mp hdist).1 j hj hjk.symm
      · exact hmem j (List.mem_cons_of_mem _ hj) hjl
    obtain ⟨l', hfold, hsl', hvl', hiff⟩ :=
      ih (l1 ++ (k, ts k) :: l2) (List.pairwise_cons.mp hdist).2 hmemL hvL
        hsortedL
    refine ⟨l', ?_, hsl', hvl', ?_⟩
    · rw [List.foldl_cons, hstep, hfold]
    · intro j
      rw [hiff j, hLmem j, List.mem_cons]
      tauto

/-- C6: starting from the empty title, after any sequence of
`upsertTimestamp` calls with pairwise-distinct kinds (stamps well-formed for
their kinds), scanning the resulting title left to right yields every
upserted kind exactly in canonical rank order Completion < Start < Pause <
End, and no other kinds: the canonical ordering is preserved by every
insertion. -/
theorem c6_order_invariant (ts : TimestampType → List Char)
    (hts : ∀ k, validStamp k (ts k) = true)
    (seq : List TimestampType)
    (hdist : List.Pairwise (fun a b => a ≠ b) seq) :
    List.Pairwise (fun a b => rank a < rank b)
      (kindsScan (foldUpserts ts seq)) ∧
    ∀ j, j ∈ kindsScan (foldUpserts ts seq) ↔ j ∈ seq := by
  obtain ⟨l', hfold, hsl', hvl', hiff⟩ :=
    foldl_upsert_render ts hts seq [] hdist (by simp) (by simp) (by simp)
  unfold foldUpserts
  rw [show seq.foldl (fun t k => upsertTimestamp t k (ts k)) [] = render l'
    from hfold]
  rw [kindsScan_render l' hvl']
  refine ⟨List.pairwise_map.mpr hsl', ?_⟩
  intro j
  rw [hiff j]
  simp

theorem c6_order_invariant_witness :
    (∀ k, validStamp k (tsFix k) = true) ∧
    List.Pairwise (fun a b => a ≠ b)
      [TimestampType.end_, TimestampType.completion, TimestampType.start,
        TimestampType.pause] ∧
    (List.Pairwise (fun a b => rank a < rank b)
      (kindsScan (foldUpserts tsFix
        [TimestampType.end_, TimestampType.completion, TimestampType.start,
          TimestampType.pause])) ∧
     ∀ j, j ∈ kindsScan (foldUpserts tsFix
        [TimestampType.end_, TimestampType.completion, TimestampType.start,
          TimestampType.pause]) ↔
       j ∈ [TimestampType.end_, TimestampType.completion, TimestampType.start,
          TimestampType.pause]) :=
  ⟨fun k => by cases k <;> rfl, by decide,
   c6_order_invariant tsFix (fun k => by cases k <;> rfl) _ (by decide)⟩
